import Mathlib

/-!
A shallow embedding of the multi-level selection simulation
(`individual.py`, `group.py`, `simulation.py`, `constants.py`).

Modelling conventions:

* Python floats are modelled as `ℚ` (the source only ever combines the
  configured rational constants with `+ - * /`, `max`, `min`).
* Randomness is an oracle (`Tape`): `q k` is the value of the `k`-th call
  to `random.random()`, `c k` selects the index taken by a call to
  `random.choice` (reduced modulo the sequence length), and `p k` is the
  index permutation produced by a call to `random.shuffle`.  Every
  primitive call consumes one tick of a single counter that is threaded
  through all operations, mirroring the single shared PRNG of the source.
* Python exceptions are modelled by `Except PyErr`: an attribute access on
  an object of the wrong kind (`Individual` where a `Group` is required or
  vice versa) is `attributeError`, division by zero is
  `zeroDivisionError`, a bad sequence index (including `random.choice` on
  an empty sequence and indexing an empty list) is `indexError`.  A raised
  exception propagates out of `run_step` uncaught, so the partially
  mutated tree is unobservable and the whole call is simply an `error`.
* Identity (`is`-like) comparisons of the source (`list.index`,
  `ind != individual`) are modelled by positional indices; objects in one
  member list are pairwise distinct objects in every reachable state of
  the source, so positions are a faithful identity.
-/

namespace Multiselect

/-- Error kinds of the Python runtime that the translated code can raise.
There is no configuration-error kind anywhere in the source. -/
inductive PyErr where
  | attributeError
  | zeroDivisionError
  | indexError
  | valueError
deriving DecidableEq

/-- Constants from `constants.py` (the rates used by the engine). -/
def ERROR_RATE : ℚ := 5 / 100

def COOPERATION_COST : ℚ := 2 / 10

def PUNISHMENT_COST : ℚ := 8 / 10

def PUNISHER_COST : ℚ := 2 / 10

def LEARNING_RATE : ℚ := 5 / 100

def MIGRATION_RATE : ℚ := 1 / 100

def COMPETITION_CHANCE : ℚ := 2 / 10

def MUTATION_CHANCE : ℚ := 2 / 100

def INDIVIDUAL_SIZE : ℤ := 20

def SCREEN_WIDTH : ℤ := 1400

def SCREEN_HEIGHT : ℤ := 800

def MARGIN : ℤ := 5

/-- Oracle for the pseudo-random source; see the module docstring. -/
structure Tape where
  q : ℕ → ℚ
  c : ℕ → ℕ
  p : ℕ → ℕ → ℕ

/-- `Role` enum of `individual.py`. -/
inductive Role where
  | COOPERATOR
  | PUNISHER
  | DEFECTOR
deriving DecidableEq

/-- `list(Role)` in enum definition order. -/
def roleList : List Role := [Role.COOPERATOR, Role.PUNISHER, Role.DEFECTOR]

/-- Rendering geometry (`x`, `y`, `width`, `height`) carried by both
individuals and groups; opaque to the engine except for
`clone_coordinates`. -/
structure Rect where
  x : ℤ
  y : ℤ
  width : ℤ
  height : ℤ
deriving DecidableEq

def indRect0 : Rect := ⟨0, 0, INDIVIDUAL_SIZE, INDIVIDUAL_SIZE⟩

def grpRect0 : Rect := ⟨0, 0, 0, 0⟩

/-- `Individual.__init__(role)`: `cooperates` starts unset (`None`),
payoff starts at the baseline 1.0. -/
structure Individual where
  role : Role
  payoff : ℚ
  cooperates : Option Bool
  rect : Rect
deriving DecidableEq

instance : Inhabited Individual := ⟨⟨Role.COOPERATOR, 1, none, indRect0⟩⟩

/-- `Individual(role)` for a given role (the engine always passes one;
the `role=None` random branch of the constructor is unused by it). -/
def mkIndividual (role : Role) : Individual :=
  ⟨role, 1, none, indRect0⟩

/-- `Individual.clone`: fresh `Individual(self.role)` (so default
geometry), then `payoff` and `cooperates` are copied. -/
def Individual.clone (i : Individual) : Individual :=
  ⟨i.role, i.payoff, i.cooperates, indRect0⟩

/-- `Individual.mutate`: with probability `MUTATION_CHANCE` pick a
uniformly random role different from the current one
(`random.choice([r for r in Role if r != self.role])`). -/
def Individual.mutate (i : Individual) (t : Tape) (k : ℕ) : Individual × ℕ :=
  if t.q k < MUTATION_CHANCE then
    let new_roles := roleList.filter (fun r => r ≠ i.role)
    ({ i with role := new_roles.getD (t.c (k + 1) % new_roles.length) i.role }, k + 2)
  else
    (i, k + 1)

/-- Truthiness of the `cooperates` attribute: `None` and `False` are
falsy, `True` is truthy. -/
def truthy : Option Bool → Bool
  | some true => true
  | _ => false

/-- A node of the runtime object graph: either an `Individual` or a
`Group(members, level)`.  The source relies on conventions, not types, so
a group's member list may in principle hold either kind; attribute
accesses dispatch on the actual kind and raise otherwise. -/
inductive Entity where
  | ind (i : Individual)
  | grp (level : ℤ) (rect : Rect) (members : List Entity)

instance : Inhabited Entity := ⟨Entity.grp 1 grpRect0 []⟩

/-- Reading `.payoff`: only individuals have one. -/
def entPayoff : Entity → Except PyErr ℚ
  | .ind i => .ok i.payoff
  | .grp _ _ _ => .error .attributeError

/-- Reading `.role`: only individuals have one. -/
def entRole : Entity → Except PyErr Role
  | .ind i => .ok i.role
  | .grp _ _ _ => .error .attributeError

/-- Writing `.role` (Python `setattr` cannot fail; the group case is
unreachable in the source because the payoff of the same object was read
first). -/
def entSetRole (e : Entity) (r : Role) : Entity :=
  match e with
  | .ind i => .ind { i with role := r }
  | .grp lvl rect ms => .grp lvl rect ms

/-- Project a member list to individuals; the first group member raises
(`AttributeError` on an individual-only attribute). -/
def asIndL : List Entity → Except PyErr (List Individual)
  | [] => .ok []
  | .ind i :: es =>
    match asIndL es with
    | .error er => .error er
    | .ok l => .ok (i :: l)
  | .grp _ _ _ :: _ => .error .attributeError

mutual

/-- All individuals contained in an entity, as a total specification-level
collector (used to state invariants; distinct from the source method
`get_all_individuals`, which can raise). -/
def allInds : Entity → List Individual
  | .ind i => [i]
  | .grp _ _ ms => allIndsL ms

def allIndsL : List Entity → List Individual
  | [] => []
  | e :: es => allInds e ++ allIndsL es

end

mutual

/-- Height of an entity (0 for individuals); used as the termination
measure of the competition stage. -/
def heightE : Entity → ℕ
  | .ind _ => 0
  | .grp _ _ ms => 1 + heightL ms

def heightL : List Entity → ℕ
  | [] => 0
  | e :: es => max (heightE e) (heightL es)

end

mutual

/-- `Group.clone` / `Individual.clone` dispatched on the member kind: a
deep copy; the fresh `Group` has zeroed geometry. -/
def cloneE : Entity → Entity
  | .ind i => .ind i.clone
  | .grp lvl _ ms => .grp lvl grpRect0 (cloneL ms)

def cloneL : List Entity → List Entity
  | [] => []
  | e :: es => cloneE e :: cloneL es

end

mutual

/-- `Group.clone_coordinates(loser, winner_clone)`: copies the geometry of
`loser` onto `winner_clone` and recurses member-by-member.  When the
recursion reaches an `Individual` as `winner_clone`, the guard
`winner_clone.members != None` raises `AttributeError` (individuals have
no `members` attribute); an `Individual` as `loser` under a group
`winner_clone` raises on `enumerate(loser.members)`. -/
def clone_coordinates : Entity → Entity → Except PyErr Entity
  | _, .ind _ => .error .attributeError
  | .ind _, .grp _ _ _ => .error .attributeError
  | .grp _ lrect lms, .grp wlvl _ wms =>
    match clone_coordinatesL lms wms with
    | .error er => .error er
    | .ok wms2 => .ok (.grp wlvl lrect wms2)

def clone_coordinatesL : List Entity → List Entity → Except PyErr (List Entity)
  | [], ws => .ok ws
  | _ :: _, [] => .error .indexError
  | l :: ls, w :: ws =>
    match clone_coordinates l w with
    | .error er => .error er
    | .ok w2 =>
      match clone_coordinatesL ls ws with
      | .error er => .error er
      | .ok ws2 => .ok (w2 :: ws2)

end

/-- Clamping of `Group.sanitize_payoff`: first `max` with 0.01, then `min`
with 1.00. -/
def sanitize_payoff (p : ℚ) : ℚ :=
  min (max p (1 / 100)) 1

/-- Update the element at an index (identity-faithful stand-in for
mutating one member object in place). -/
def updAt : List Individual → ℕ → (Individual → Individual) → List Individual
  | [], _, _ => []
  | x :: xs, 0, f => f x :: xs
  | x :: xs, n + 1, f => x :: updAt xs n f

/-- Role drawn for one freshly created individual inside
`Simulation._create_hierarchy` (cumulative comparison of one
`random.random()` draw against the two ratios). -/
def drawRole (initialCoop initialPun rand : ℚ) : Role :=
  if rand < initialCoop then Role.COOPERATOR
  else if rand < initialCoop + initialPun then Role.PUNISHER
  else Role.DEFECTOR

/-- The individuals of one first-order group (`for _ in range(sizes[0])`),
one `random.random()` per individual. -/
def createIndividuals (count : ℕ) (initialCoop initialPun : ℚ) (t : Tape) (k : ℕ) :
    List Entity × ℕ :=
  match count with
  | 0 => ([], k)
  | n + 1 =>
    let i := mkIndividual (drawRole initialCoop initialPun (t.q k))
    let (rest, k2) := createIndividuals n initialCoop initialPun t (k + 1)
    (Entity.ind i :: rest, k2)

mutual

/-- `Simulation._create_hierarchy(sizes, level)` for `level ≥ 1`
(`level = 0` only arises for an empty `sizes`, handled by the caller): at
level 1 build `sizes[0]` individuals, above it build `sizes[level-1]`
subgroups recursively.  `sizes[level-1]` on a too-short list raises
`IndexError`. -/
def create_hierarchy (sizes : List ℕ) (initialCoop initialPun : ℚ) (t : Tape)
    (k : ℕ) : (level : ℕ) → Except PyErr (Entity × ℕ)
  | 0 => .error .indexError
  | 1 =>
    match sizes with
    | [] => .error .indexError
    | s0 :: _ =>
      let (inds, k2) := createIndividuals s0 initialCoop initialPun t k
      .ok (.grp 1 grpRect0 inds, k2)
  | n + 2 =>
    match sizes[n + 1]? with
    | none => .error .indexError
    | some cnt =>
      match createSubgroups sizes initialCoop initialPun t k (n + 1) cnt with
      | .error er => .error er
      | .ok (subs, k2) => .ok (.grp (n + 2) grpRect0 subs, k2)

def createSubgroups (sizes : List ℕ) (initialCoop initialPun : ℚ) (t : Tape)
    (k : ℕ) (level : ℕ) : (cnt : ℕ) → Except PyErr (List Entity × ℕ)
  | 0 => .ok ([], k)
  | n + 1 =>
    match create_hierarchy sizes initialCoop initialPun t k level with
    | .error er => .error er
    | .ok (g, k2) =>
      match createSubgroups sizes initialCoop initialPun t k2 level n with
      | .error er => .error er
      | .ok (gs, k3) => .ok (g :: gs, k3)

end

/-- State owned by `Simulation`: the root group and the stage cursor
(starting at 0).  Rendering state is out of scope. -/
structure Simulation where
  root : Entity
  current_stage : ℕ

/-- Reading `.x` of an individual or group (both carry geometry). -/
def entX : Entity → ℤ
  | .ind i => i.rect.x
  | .grp _ r _ => r.x

/-- Reading `.y`. -/
def entY : Entity → ℤ
  | .ind i => i.rect.y
  | .grp _ r _ => r.y

/-- Reading `.width`. -/
def entW : Entity → ℤ
  | .ind i => i.rect.width
  | .grp _ r _ => r.width

/-- Reading `.height`. -/
def entH : Entity → ℤ
  | .ind i => i.rect.height
  | .grp _ r _ => r.height

/-- The assignment `obj.x, obj.y = x, y`: only the rendering position
moves; width and height are untouched. -/
def entSetXY (e : Entity) (x y : ℤ) : Entity :=
  match e with
  | .ind i => .ind { i with rect := ⟨x, y, i.rect.width, i.rect.height⟩ }
  | .grp lvl r ms => .grp lvl ⟨x, y, r.width, r.height⟩ ms

/-- The member-positioning loop of `_calculate_positions` on a
first-order group: member `i` goes to grid cell `(i % cols, i / cols)`.
No recursion and no division, so it cannot raise. -/
def placeMembers (x y : ℤ) (cols : ℕ) : List Entity → ℕ → List Entity
  | [], _ => []
  | e :: es, i =>
    entSetXY e (x + MARGIN + ((i % cols : ℕ) : ℤ) * (INDIVIDUAL_SIZE + MARGIN))
               (y + MARGIN + ((i / cols : ℕ) : ℤ) * (INDIVIDUAL_SIZE + MARGIN)) ::
    placeMembers x y cols es (i + 1)

/-- The engine-visible fields of an individual — everything except the
rendering rect. -/
def indData (i : Individual) : Role × ℚ × Option Bool :=
  (i.role, i.payoff, i.cooperates)

mutual

/-- `Simulation._calculate_positions(group, x, y, max_width, max_height)`
with `top = len(self.group_sizes)`: pure rendering geometry, but part of
`__init__`, and it can raise.  A first-order group lays its members out
in a grid of at most 5 columns (`cols ≥ 1`, no division by a member
count).  A non-first-order group at the top level divides the available
width by its member count — `ZeroDivisionError` when it has no members —
and a middle level divides the available height by the derived row
count, which is zero exactly when the member count is: a zero size
anywhere above the leaf level raises.  `min`/`max` over the children
after the loop would raise `ValueError` on an empty member list, but the
division always raises first.  Called on an `Individual` it would read
the missing `is_first_order` attribute.  Python `//` is floor division
(`Int.fdiv`); `int(np.sqrt(n))` is `Nat.sqrt`. -/
def calculate_positions (top : ℕ) :
    Entity → ℤ → ℤ → ℤ → ℤ → Except PyErr Entity
  | .ind _, _, _, _, _ => .error .attributeError
  | .grp lvl _ ms, x, y, max_width, max_height =>
    if lvl == 1 then
      let n := ms.length
      let cols : ℕ := max 1 (min (Nat.sqrt n) 5)
      let rows : ℕ := (n + cols - 1) / cols
      let width : ℤ := (cols : ℤ) * (INDIVIDUAL_SIZE + MARGIN) + MARGIN
      let height : ℤ := (rows : ℤ) * (INDIVIDUAL_SIZE + MARGIN) + MARGIN
      .ok (.grp lvl ⟨x, y, width, height⟩ (placeMembers x y cols ms 0))
    else
      let n := ms.length
      if lvl == (top : ℤ) then
        let available_width := max_width - 2 * MARGIN
        let available_height := max_height - 2 * MARGIN
        if n == 0 then .error .zeroDivisionError
        else
          let group_width := available_width.fdiv (n : ℤ)
          match calcPosL top
              (fun i => (x + MARGIN + (i : ℤ) * group_width, y + MARGIN))
              (group_width - MARGIN) (available_height - MARGIN) ms 0 with
          | .error er => .error er
          | .ok ms2 =>
            match ms2 with
            | [] => .error .valueError
            | m :: rest =>
              let min_x := rest.foldl (fun a e => min a (entX e)) (entX m)
              let min_y := rest.foldl (fun a e => min a (entY e)) (entY m)
              let max_x := rest.foldl (fun a e => max a (entX e + entW e))
                (entX m + entW m)
              let max_y := rest.foldl (fun a e => max a (entY e + entH e))
                (entY m + entH m)
              .ok (.grp lvl ⟨x, y, max_x - min_x + 2 * MARGIN,
                max_y - min_y + 2 * MARGIN⟩ ms2)
      else
        let cols : ℕ := max 1 (min (Nat.sqrt n) 3)
        let rows : ℕ := (n + cols - 1) / cols
        let available_width := max_width - 2 * MARGIN
        let available_height := max_height - 2 * MARGIN
        let cell_width := available_width.fdiv (cols : ℤ)
        if rows == 0 then .error .zeroDivisionError
        else
          let cell_height := available_height.fdiv (rows : ℤ)
          match calcPosL top
              (fun i => (x + MARGIN + ((i % cols : ℕ) : ℤ) * cell_width,
                         y + MARGIN + ((i / cols : ℕ) : ℤ) * cell_height))
              (cell_width - MARGIN) (cell_height - MARGIN) ms 0 with
          | .error er => .error er
          | .ok ms2 =>
            match ms2 with
            | [] => .error .valueError
            | m :: rest =>
              let min_x := rest.foldl (fun a e => min a (entX e)) (entX m)
              let min_y := rest.foldl (fun a e => min a (entY e)) (entY m)
              let max_x := rest.foldl (fun a e => max a (entX e + entW e))
                (entX m + entW m)
              let max_y := rest.foldl (fun a e => max a (entY e + entH e))
                (entY m + entH m)
              .ok (.grp lvl ⟨x, y, max_x - min_x + 2 * MARGIN,
                max_y - min_y + 2 * MARGIN⟩ ms2)

/-- The subgroup-positioning loop: child `i` is placed at `pos i` and
recursed into with the cell dimensions. -/
def calcPosL (top : ℕ) (pos : ℕ → ℤ × ℤ) (mw mh : ℤ) :
    List Entity → ℕ → Except PyErr (List Entity)
  | [], _ => .ok []
  | e :: es, i =>
    match calculate_positions top e (pos i).1 (pos i).2 mw mh with
    | .error er => .error er
    | .ok e2 =>
      match calcPosL top pos mw mh es (i + 1) with
      | .error er => .error er
      | .ok es2 => .ok (e2 :: es2)

end

/-- `Simulation.__init__`: performs no validation of sizes or ratios; the
tree is built by `_create_hierarchy(sizes)` with `level = len(sizes)`, so
an empty list reaches `sizes[-1]` and raises `IndexError`; the
constructor then calls `_calculate_positions(root, 50, 100,
SCREEN_WIDTH - 100, SCREEN_HEIGHT - 150)`, which raises
`ZeroDivisionError` when a non-leaf level has size zero. -/
def mkSimulation (sizes : List ℕ) (initialCoop initialPun : ℚ) (t : Tape)
    (k : ℕ) : Except PyErr (Simulation × ℕ) :=
  match create_hierarchy sizes initialCoop initialPun t k sizes.length with
  | .error er => .error er
  | .ok (root, k2) =>
    match calculate_positions sizes.length root 50 100 (SCREEN_WIDTH - 100)
        (SCREEN_HEIGHT - 150) with
    | .error er => .error er
    | .ok root2 => .ok (⟨root2, 0⟩, k2)

/-- First loop of stage 1 on a leaf group: cooperators and punishers draw
`random.random() > ERROR_RATE` and pay `COOPERATION_COST` (unclamped);
defectors never cooperate and pay nothing (and consume no draw). -/
def stage1_draws (inds : List Individual) (t : Tape) (k : ℕ) :
    List Individual × ℕ :=
  match inds with
  | [] => ([], k)
  | i :: rest =>
    match i.role with
    | .COOPERATOR | .PUNISHER =>
      let i2 : Individual :=
        { i with cooperates := some (t.q k > ERROR_RATE),
                 payoff := i.payoff - COOPERATION_COST }
      let (rest2, k2) := stage1_draws rest t (k + 1)
      (i2 :: rest2, k2)
    | .DEFECTOR =>
      let (rest2, k2) := stage1_draws rest t k
      ({ i with cooperates := some false } :: rest2, k2)

/-- Stage 1 on a first-order group: after the draws, the gain is
`(c + 0.6*c) / len(members) / 3` where `c` counts members with role
`COOPERATOR` whose `cooperates` is truthy; every member receives the gain
and is clamped.  An empty member list raises `ZeroDivisionError`. -/
def stage1_leaf (ms : List Entity) (t : Tape) (k : ℕ) :
    Except PyErr (List Entity × ℕ) :=
  match asIndL ms with
  | .error er => .error er
  | .ok inds =>
    let (inds1, k1) := stage1_draws inds t k
    let c : ℕ :=
      (inds1.filter (fun m => decide (m.role = Role.COOPERATOR) && truthy m.cooperates)).length
    let no_of_cooperators : ℚ := (c : ℚ) + (6 / 10) * (c : ℚ)
    if ms.length = 0 then .error .zeroDivisionError
    else
      let coop_gain := no_of_cooperators / (ms.length : ℚ) / 3
      let inds2 := inds1.map fun i =>
        { i with payoff := sanitize_payoff (i.payoff + coop_gain) }
      .ok (inds2.map Entity.ind, k1)

mutual

/-- `Group.stage1_cooperation`: leaf groups act, higher-order groups
recurse into every member (`AttributeError` if a member is an
individual). -/
def stage1_cooperation (e : Entity) (t : Tape) (k : ℕ) :
    Except PyErr (Entity × ℕ) :=
  match e with
  | .ind _ => .error .attributeError
  | .grp lvl rect ms =>
    if lvl == 1 then
      match stage1_leaf ms t k with
      | .error er => .error er
      | .ok (ms2, k2) => .ok (.grp lvl rect ms2, k2)
    else
      match stage1List ms t k with
      | .error er => .error er
      | .ok (ms2, k2) => .ok (.grp lvl rect ms2, k2)

def stage1List (ms : List Entity) (t : Tape) (k : ℕ) :
    Except PyErr (List Entity × ℕ) :=
  match ms with
  | [] => .ok ([], k)
  | e :: es =>
    match stage1_cooperation e t k with
    | .error er => .error er
    | .ok (e2, k2) =>
      match stage1List es t k2 with
      | .error er => .error er
      | .ok (es2, k3) => .ok (e2 :: es2, k3)

end

/-- Member indices with role `PUNISHER` (the `punishers` list of
stage 2). -/
def punisherIdxs (inds : List Individual) : List ℕ :=
  (List.range inds.length).filter fun j =>
    decide ((inds.getD j default).role = Role.PUNISHER)

/-- Member indices whose `cooperates` is falsy (the `defectors` list of
stage 2; an unset flag counts as not cooperating). -/
def defectorIdxs (inds : List Individual) : List ℕ :=
  (List.range inds.length).filter fun j =>
    !truthy (inds.getD j default).cooperates

/-- One `(punisher, defector)` interaction of stage 2: the punisher pays
`PUNISHER_COST / n`, the defector pays `PUNISHMENT_COST / n` (with `n` the
defector count), and both are clamped. -/
def punishPair (inds : List Individual) (p d n : ℕ) : List Individual :=
  let i1 := updAt inds p fun x => { x with payoff := x.payoff - PUNISHER_COST / (n : ℚ) }
  let i2 := updAt i1 d fun x => { x with payoff := x.payoff - PUNISHMENT_COST / (n : ℚ) }
  let i3 := updAt i2 p fun x => { x with payoff := sanitize_payoff x.payoff }
  updAt i3 d fun x => { x with payoff := sanitize_payoff x.payoff }

/-- Inner loop of stage 2 for one punisher over all defectors. -/
def stage2_inner (p : ℕ) (n : ℕ) (ds : List ℕ)
    (st : List Individual × List (ℕ × ℕ)) : List Individual × List (ℕ × ℕ) :=
  match ds with
  | [] => st
  | d :: rest => stage2_inner p n rest (punishPair st.1 p d n, st.2 ++ [(p, d)])

/-- Outer loop of stage 2 over the punishers; `n = len(defectors)` and the
whole inner loop is skipped when `n = 0`. -/
def stage2_outer (ds : List ℕ) (ps : List ℕ)
    (st : List Individual × List (ℕ × ℕ)) : List Individual × List (ℕ × ℕ) :=
  match ps with
  | [] => st
  | p :: rest =>
    if ds.length > 0 then
      stage2_outer ds rest (stage2_inner p ds.length ds st)
    else
      stage2_outer ds rest st

/-- Stage 2 on a first-order group, with connections as `(punisher index,
defector index)` pairs in emission order. -/
def stage2_leaf (ms : List Entity) :
    Except PyErr (List Entity × List (ℕ × ℕ)) :=
  match asIndL ms with
  | .error er => .error er
  | .ok inds =>
    let (inds2, conns) := stage2_outer (defectorIdxs inds) (punisherIdxs inds) (inds, [])
    .ok (inds2.map Entity.ind, conns)

mutual

/-- `Group.stage2_punishment`: a first-order group acts directly; a
higher-order group runs the stage on each of its first-order groups in
depth-first order, concatenating the connection lists (modelled as direct
recursion, which visits the same leaves in the same order and raises under
the same conditions as `get_first_order_groups`). -/
def stage2_punishment (e : Entity) :
    Except PyErr (Entity × List (ℕ × ℕ)) :=
  match e with
  | .ind _ => .error .attributeError
  | .grp lvl rect ms =>
    if lvl == 1 then
      match stage2_leaf ms with
      | .error er => .error er
      | .ok (ms2, conns) => .ok (.grp lvl rect ms2, conns)
    else
      match stage2List ms with
      | .error er => .error er
      | .ok (ms2, conns) => .ok (.grp lvl rect ms2, conns)

def stage2List (ms : List Entity) :
    Except PyErr (List Entity × List (ℕ × ℕ)) :=
  match ms with
  | [] => .ok ([], [])
  | e :: es =>
    match stage2_punishment e with
    | .error er => .error er
    | .ok (e2, conns) =>
      match stage2List es with
      | .error er => .error er
      | .ok (es2, conns2) => .ok (e2 :: es2, conns ++ conns2)

end

mutual

/-- `Group.get_first_order_groups`, returning the member lists of the
first-order groups in depth-first order (an individual member of a
higher-order group raises, since `is_first_order` is called on it). -/
def get_first_order_groups : Entity → Except PyErr (List (List Entity))
  | .ind _ => .error .attributeError
  | .grp lvl _ ms => if lvl == 1 then .ok [ms] else gfogList ms

def gfogList : List Entity → Except PyErr (List (List Entity))
  | [] => .ok []
  | .ind _ :: _ => .error .attributeError
  | .grp lvl rect sms :: es =>
    if lvl == 1 then
      match gfogList es with
      | .error er => .error er
      | .ok rest => .ok (sms :: rest)
    else
      match get_first_order_groups (.grp lvl rect sms) with
      | .error er => .error er
      | .ok here =>
        match gfogList es with
        | .error er => .error er
        | .ok rest => .ok (here ++ rest)

end

mutual

/-- Write back the (mutated) member lists of the first-order groups, in
the same depth-first order in which `get_first_order_groups` collected
them; models that the collected groups are references into the tree. -/
def set_fog : Entity → List (List Entity) → Entity × List (List Entity)
  | .ind i, state => (.ind i, state)
  | .grp lvl rect ms, state =>
    if lvl == 1 then
      match state with
      | [] => (.grp lvl rect ms, [])
      | h :: rest => (.grp lvl rect h, rest)
    else
      let (ms2, state2) := set_fogL ms state
      (.grp lvl rect ms2, state2)

def set_fogL : List Entity → List (List Entity) → List Entity × List (List Entity)
  | [], state => ([], state)
  | e :: es, state =>
    let (e2, state2) := set_fog e state
    let (es2, state3) := set_fogL es state2
    (e2 :: es2, state3)

end

/-- Replace member `m` of first-order group `g` in the flattened state. -/
def setEnt (state : List (List Entity)) (g m : ℕ) (e : Entity) :
    List (List Entity) :=
  state.set g ((state.getD g []).set m e)

/-- Partner selection of stage 3 for the individual at `(g, m)`: a
`migration_rate` draw picks between-group (a uniform other group, then a
uniform member of it — `random.choice` on an empty member list raises) and
within-group (a uniform other member); `none` when no eligible partner
exists (the `continue` branches). -/
def stage3_partner (state : List (List Entity)) (g m : ℕ) (t : Tape) (k : ℕ) :
    Except PyErr (Option (ℕ × ℕ) × ℕ) :=
  if t.q k < MIGRATION_RATE then
    let others := (List.range state.length).filter fun j => j != g
    if others.length = 0 then .ok (none, k + 1)
    else
      let og := others.getD (t.c (k + 1) % others.length) 0
      let olen := (state.getD og []).length
      if olen = 0 then .error .indexError
      else .ok (some (og, t.c (k + 2) % olen), k + 3)
  else
    let others := (List.range (state.getD g []).length).filter fun j => j != m
    if others.length = 0 then .ok (none, k + 1)
    else .ok (some (g, others.getD (t.c (k + 1) % others.length) 0), k + 2)

/-- Loop body of stage 3 for one individual: select a partner (or skip),
floor both payoffs at 0.01, adopt the partner's role with probability
`p_c / (p_c + p_i)` and record the connection exactly on adoption. -/
def stage3_body (state : List (List Entity)) (g m : ℕ) (t : Tape) (k : ℕ) :
    Except PyErr (List (List Entity) × Option ((ℕ × ℕ) × (ℕ × ℕ)) × ℕ) :=
  match stage3_partner state g m t k with
  | .error er => .error er
  | .ok (none, k1) => .ok (state, none, k1)
  | .ok (some (pg, pm), k1) =>
    match (state.getD g [])[m]? with
    | none => .error .indexError
    | some selfEnt =>
      match entPayoff selfEnt with
      | .error er => .error er
      | .ok pself =>
        match (state.getD pg [])[pm]? with
        | none => .error .indexError
        | some partnerEnt =>
          match entPayoff partnerEnt with
          | .error er => .error er
          | .ok ppart =>
            let p_i := max pself (1 / 100)
            let p_c := max ppart (1 / 100)
            if t.q k1 < p_c / (p_c + p_i) then
              match entRole partnerEnt with
              | .error er => .error er
              | .ok r =>
                .ok (setEnt state g m (entSetRole selfEnt r),
                     some ((g, m), (pg, pm)), k1 + 1)
            else
              .ok (state, none, k1 + 1)

/-- Stage 3 inner loop over the members of first-order group `g`. -/
def stage3_member_loop (g : ℕ) (t : Tape) :
    List ℕ → List (List Entity) → List ((ℕ × ℕ) × (ℕ × ℕ)) → ℕ →
    Except PyErr (List (List Entity) × List ((ℕ × ℕ) × (ℕ × ℕ)) × ℕ)
  | [], state, conns, k => .ok (state, conns, k)
  | m :: rest, state, conns, k =>
    match stage3_body state g m t k with
    | .error er => .error er
    | .ok (state2, oconn, k2) =>
      stage3_member_loop g t rest state2 (conns ++ oconn.toList) k2

/-- Stage 3 outer loop over the first-order groups; the unused
`learning_individuals` comprehension consumes one `random.random()` per
member before the member loop runs. -/
def stage3_group_loop (t : Tape) :
    List ℕ → List (List Entity) → List ((ℕ × ℕ) × (ℕ × ℕ)) → ℕ →
    Except PyErr (List (List Entity) × List ((ℕ × ℕ) × (ℕ × ℕ)) × ℕ)
  | [], state, conns, k => .ok (state, conns, k)
  | g :: rest, state, conns, k =>
    let k1 := k + (state.getD g []).length
    match stage3_member_loop g t (List.range (state.getD g []).length) state conns k1 with
    | .error er => .error er
    | .ok (state2, conns2, k2) => stage3_group_loop t rest state2 conns2 k2

mutual

/-- `Group.stage3_learning`: only second-order groups act, on the
flattened list of their first-order groups; deeper groups recurse (both
source branches do the same); first-order groups return no connections.
Connections are `((group index, member index), (group index, member
index))` pairs into the flattened state. -/
def stage3_learning (e : Entity) (t : Tape) (k : ℕ) :
    Except PyErr (Entity × List ((ℕ × ℕ) × (ℕ × ℕ)) × ℕ) :=
  match e with
  | .ind _ => .error .attributeError
  | .grp lvl rect ms =>
    if lvl == 2 then
      match gfogList ms with
      | .error er => .error er
      | .ok state =>
        match stage3_group_loop t (List.range state.length) state [] k with
        | .error er => .error er
        | .ok (state2, conns, k2) =>
          let (ms2, _) := set_fogL ms state2
          .ok (.grp lvl rect ms2, conns, k2)
    else if lvl > 2 then
      match stage3List ms t k with
      | .error er => .error er
      | .ok (ms2, conns, k2) => .ok (.grp lvl rect ms2, conns, k2)
    else
      .ok (.grp lvl rect ms, [], k)

def stage3List (ms : List Entity) (t : Tape) (k : ℕ) :
    Except PyErr (List Entity × List ((ℕ × ℕ) × (ℕ × ℕ)) × ℕ) :=
  match ms with
  | [] => .ok ([], [], k)
  | e :: es =>
    match stage3_learning e t k with
    | .error er => .error er
    | .ok (e2, conns, k2) =>
      match stage3List es t k2 with
      | .error er => .error er
      | .ok (es2, conns2, k3) => .ok (e2 :: es2, conns ++ conns2, k3)

end

mutual

/-- `Group.get_all_individuals`: a first-order group returns its raw
member list; higher-order groups concatenate recursively (an individual
member raises, having no such method). -/
def get_all_individuals : Entity → Except PyErr (List Entity)
  | .ind _ => .error .attributeError
  | .grp lvl _ ms => if lvl == 1 then .ok ms else gaiList ms

def gaiList : List Entity → Except PyErr (List Entity)
  | [] => .ok []
  | e :: es =>
    match get_all_individuals e with
    | .error er => .error er
    | .ok here =>
      match gaiList es with
      | .error er => .error er
      | .ok rest => .ok (here ++ rest)

end

/-- `sum(1 for ind in l if ind.role in [COOPERATOR, PUNISHER])`. -/
def coopCount : List Entity → Except PyErr ℕ
  | [] => .ok 0
  | e :: es =>
    match entRole e with
    | .error er => .error er
    | .ok r =>
      match coopCount es with
      | .error er => .error er
      | .ok n =>
        .ok ((if r = Role.COOPERATOR ∨ r = Role.PUNISHER then 1 else 0) + n)

/-- Cooperation rate of a competing subgroup: cooperator-or-punisher count
over total count; an empty individual list raises `ZeroDivisionError`. -/
def rateOf (l : List Entity) : Except PyErr ℚ :=
  match coopCount l with
  | .error er => .error er
  | .ok cnt =>
    if l.length = 0 then .error .zeroDivisionError
    else .ok ((cnt : ℚ) / (l.length : ℚ))

/-- `range(0, n, 2)`. -/
def evenStarts (n : ℕ) : List ℕ :=
  (List.range n).filter fun i => i % 2 == 0

/-- One competition between a pair: both cooperation rates are computed
(each can raise), then `win_prob = 0.5 + (c1 - c2) / 2` and the win draw
decides whether group 1 wins. -/
def stage4_compete (group1 group2 : Entity) (t : Tape) (k : ℕ) :
    Except PyErr Bool :=
  match get_all_individuals group1 with
  | .error er => .error er
  | .ok l1 =>
    match get_all_individuals group2 with
    | .error er => .error er
    | .ok l2 =>
      match rateOf l1 with
      | .error er => .error er
      | .ok c1 =>
        match rateOf l2 with
        | .error er => .error er
        | .ok c2 => .ok (t.q k < 1 / 2 + (c1 - c2) / 2)

/-- The pair loop of stage 4.  `orig` is the member list as it was when
the shuffled copy was taken (pair members are looked up there, since the
shuffled copy holds the original references), `sub` maps shuffled
positions to original indices, and `mem` is the mutable member list in
which the loser's slot is overwritten by `clone_coordinates`' result.  A
pair only consumes its competition draw when `i + 1 < len` (Python
short-circuit), and its win draw only when it actually competes. -/
def stage4_pair_loop (orig : List Entity) (sub : List ℕ) (t : Tape) :
    List ℕ → List Entity → List (Entity × Entity) → ℕ →
    Except PyErr (List Entity × List (Entity × Entity) × ℕ)
  | [], mem, conns, k => .ok (mem, conns, k)
  | i :: rest, mem, conns, k =>
    if i + 1 < sub.length then
      if t.q k < COMPETITION_CHANCE then
        match orig[sub.getD i 0]?, orig[sub.getD (i + 1) 0]? with
        | some group1, some group2 =>
          match stage4_compete group1 group2 t (k + 1) with
          | .error er => .error er
          | .ok g1wins =>
            let wl : Entity × Entity × ℕ :=
              if g1wins then (group1, group2, sub.getD (i + 1) 0)
              else (group2, group1, sub.getD i 0)
            match clone_coordinates wl.2.1 (cloneE wl.1) with
            | .error er => .error er
            | .ok wc2 =>
              stage4_pair_loop orig sub t rest (mem.set wl.2.2 wc2)
                (conns ++ [(wl.1, wl.2.1)]) (k + 2)
        | _, _ => .error .indexError
      else
        stage4_pair_loop orig sub t rest mem conns (k + 1)
    else
      stage4_pair_loop orig sub t rest mem conns k

mutual

/-- Depth of a cloned entity is unchanged (termination fact for the
competition stage). -/
def heightE_cloneE : (e : Entity) → heightE (cloneE e) = heightE e
  | .ind _ => rfl
  | .grp lvl rect ms => by
    simp only [cloneE, heightE, heightL_cloneL ms]

def heightL_cloneL : (ms : List Entity) → heightL (cloneL ms) = heightL ms
  | [] => rfl
  | e :: es => by
    simp only [cloneL, heightL, heightE_cloneE e, heightL_cloneL es]

end

mutual

/-- A successful `clone_coordinates` result is no taller than its two
arguments (termination fact for the competition stage). -/
def heightE_cc : (l w w2 : Entity) → clone_coordinates l w = .ok w2 →
    heightE w2 ≤ max (heightE l) (heightE w)
  | _, .ind _, _ => by simp [clone_coordinates]
  | .ind _, .grp _ _ _, _ => by simp [clone_coordinates]
  | .grp ll lr lms, .grp wl wr wms, w2 => by
    simp only [clone_coordinates]
    cases h : clone_coordinatesL lms wms with
    | error er => simp
    | ok ws2 =>
      intro h2
      cases h2
      have := heightL_ccL lms wms ws2 h
      simp only [heightE]
      omega

def heightL_ccL : (ls ws ws2 : List Entity) →
    clone_coordinatesL ls ws = .ok ws2 →
    heightL ws2 ≤ max (heightL ls) (heightL ws)
  | [], ws, ws2 => by
    simp only [clone_coordinatesL, Except.ok.injEq]
    intro h
    cases h
    simp [heightL]
  | _ :: _, [], _ => by simp [clone_coordinatesL]
  | l :: ls, w :: ws, ws2 => by
    simp only [clone_coordinatesL]
    cases h1 : clone_coordinates l w with
    | error er => simp
    | ok w2 =>
      cases h2 : clone_coordinatesL ls ws with
      | error er => simp
      | ok ws2b =>
        intro h3
        cases h3
        have a1 := heightE_cc l w w2 h1
        have a2 := heightL_ccL ls ws ws2b h2
        simp only [heightL]
        omega

end

/-- Each member bounds below the height of its list. -/
def heightE_mem_le : ∀ (ms : List Entity) (e : Entity), e ∈ ms →
    heightE e ≤ heightL ms := by
  intro ms
  induction ms with
  | nil => intro e h; cases h
  | cons x xs ih =>
    intro e h
    rcases List.mem_cons.mp h with h1 | h1
    · cases h1; simp [heightL]
    · have := ih e h1
      simp only [heightL]
      omega

/-- Setting a slot bounds the height by the list's and the new entry's. -/
def heightL_set_le : ∀ (ms : List Entity) (i : ℕ) (x : Entity),
    heightL (ms.set i x) ≤ max (heightL ms) (heightE x) := by
  intro ms
  induction ms with
  | nil => intro i x; simp [heightL]
  | cons y ys ih =>
    intro i x
    cases i with
    | zero => simp only [List.set, heightL]; omega
    | succ n =>
      have := ih n x
      simp only [List.set, heightL]
      omega

/-- The pair loop never increases the height of the member list
(termination fact for the recursion of stage 4 into the updated member
list). -/
def heightL_pair_loop : ∀ (is : List ℕ) (orig : List Entity) (sub : List ℕ) (t : Tape)
    (mem : List Entity) (conns : List (Entity × Entity)) (k : ℕ)
    (mem2 : List Entity) (conns2 : List (Entity × Entity)) (k2 : ℕ),
    stage4_pair_loop orig sub t is mem conns k = .ok (mem2, conns2, k2) →
    heightL mem ≤ heightL orig → heightL mem2 ≤ heightL orig := by
  intro is
  induction is with
  | nil =>
    intro orig sub t mem conns k mem2 conns2 k2 h hb
    simp only [stage4_pair_loop, Except.ok.injEq, Prod.mk.injEq] at h
    obtain ⟨h1, -, -⟩ := h
    exact h1 ▸ hb
  | cons i rest ih =>
    intro orig sub t mem conns k mem2 conns2 k2 h hb
    simp only [stage4_pair_loop] at h
    by_cases hlen : i + 1 < sub.length
    · simp only [if_pos hlen] at h
      by_cases hq : t.q k < COMPETITION_CHANCE
      · simp only [if_pos hq] at h
        split at h
        case _ group1 group2 h1 h2 =>
          have hm1 : group1 ∈ orig := List.getElem?_mem h1
          have hm2 : group2 ∈ orig := List.getElem?_mem h2
          split at h
          case _ => cases h
          case _ g1wins heq =>
            split at h
            case _ => cases h
            case _ wc2 h7 =>
              set wl : Entity × Entity × ℕ :=
                if g1wins then (group1, group2, sub.getD (i + 1) 0)
                else (group2, group1, sub.getD i 0) with hwl
              have hw1 : heightE wl.1 ≤ heightL orig := by
                rw [hwl]
                split
                · exact heightE_mem_le orig group1 hm1
                · exact heightE_mem_le orig group2 hm2
              have hw2 : heightE wl.2.1 ≤ heightL orig := by
                rw [hwl]
                split
                · exact heightE_mem_le orig group2 hm2
                · exact heightE_mem_le orig group1 hm1
              have hcc := heightE_cc wl.2.1 (cloneE wl.1) wc2 h7
              rw [heightE_cloneE wl.1] at hcc
              have hset := heightL_set_le mem wl.2.2 wc2
              refine ih orig sub t (mem.set wl.2.2 wc2) _ _ mem2 conns2 k2 h ?_
              omega
        case _ => cases h
      · simp only [if_neg hq] at h
        exact ih orig sub t mem conns (k + 1) mem2 conns2 k2 h hb
    · simp only [if_neg hlen] at h
      exact ih orig sub t mem conns k mem2 conns2 k2 h hb

/-- Lexicographic helper for the termination argument of stage 4. -/
def lex3_of_le : ∀ {a b c d e f : ℕ}, a ≤ d →
    (a = d → Prod.Lex (· < ·) (· < ·) (b, c) (e, f)) →
    Prod.Lex (· < ·) (Prod.Lex (· < ·) (· < ·)) (a, b, c) (d, e, f) := by
  intro a b c d e f hle hrest
  rcases Nat.eq_or_lt_of_le hle with heq | hlt
  · cases heq
    exact Prod.Lex.right a (hrest rfl)
  · exact Prod.Lex.left _ _ hlt

mutual

/-- `Group.stage4_competition`: above leaf level, shuffle the member
list into pairs (the oracle permutation `t.p k` maps shuffled positions to
original indices, which also models the identity-based
`members.index(loser)` lookup), run the pair loop, and then recurse into
every non-first-order member of the updated member list.  First-order
groups return no connections; an individual member of the recursion loop
raises (`is_first_order` on an individual). -/
def stage4_competition (e : Entity) (t : Tape) (k : ℕ) :
    Except PyErr (Entity × List (Entity × Entity) × ℕ) :=
  match e with
  | .ind _ => .error .attributeError
  | .grp lvl rect ms =>
    if lvl > 1 then
      let n := ms.length
      let sub := (List.range n).map fun j => t.p k j % n
      match hpl : stage4_pair_loop ms sub t (evenStarts n) ms [] (k + 1) with
      | .error er => .error er
      | .ok (ms2, conns, k2) =>
        match stage4_children ms2 t k2 with
        | .error er => .error er
        | .ok (ms3, conns2, k3) => .ok (.grp lvl rect ms3, conns ++ conns2, k3)
    else
      .ok (.grp lvl rect ms, [], k)
termination_by (heightE e, 0, 0)
decreasing_by
  simp_wf
  have hb := heightL_pair_loop _ _ _ _ _ _ _ _ _ _ hpl (le_refl _)
  exact Prod.Lex.left _ _ (by simp only [heightE]; omega)

def stage4_children (ms : List Entity) (t : Tape) (k : ℕ) :
    Except PyErr (List Entity × List (Entity × Entity) × ℕ) :=
  match ms with
  | [] => .ok ([], [], k)
  | .ind _ :: _ => .error .attributeError
  | .grp lvl rect ims :: es =>
    if lvl == 1 then
      match stage4_children es t k with
      | .error er => .error er
      | .ok (es2, conns, k2) => .ok (.grp lvl rect ims :: es2, conns, k2)
    else
      match stage4_competition (.grp lvl rect ims) t k with
      | .error er => .error er
      | .ok (e2, conns, k2) =>
        match stage4_children es t k2 with
        | .error er => .error er
        | .ok (es2, conns2, k3) => .ok (e2 :: es2, conns ++ conns2, k3)
termination_by (heightL ms, 1, ms.length)
decreasing_by
  · simp_wf
    apply lex3_of_le
    · show heightL _ ≤ heightL (_ :: _)
      simp only [heightL]
      exact Nat.le_max_right _ _
    · intro _
      exact Prod.Lex.right _ (Nat.lt_succ_self _)
  · simp_wf
    apply lex3_of_le
    · show heightE _ ≤ heightL (_ :: _)
      simp only [heightL]
      exact Nat.le_max_left _ _
    · intro _
      exact Prod.Lex.left _ _ Nat.zero_lt_one
  · simp_wf
    apply lex3_of_le
    · show heightL _ ≤ heightL (_ :: _)
      simp only [heightL]
      exact Nat.le_max_right _ _
    · intro _
      exact Prod.Lex.right _ (Nat.lt_succ_self _)

end

mutual

/-- `Group.stage5_mutation`: flattens to the individuals
(`get_all_individuals` semantics, including its raises) and calls
`mutate` on each in depth-first order. -/
def stage5_mutation (e : Entity) (t : Tape) (k : ℕ) :
    Except PyErr (Entity × ℕ) :=
  match e with
  | .ind _ => .error .attributeError
  | .grp lvl rect ms =>
    if lvl == 1 then
      match mutateMembers ms t k with
      | .error er => .error er
      | .ok (ms2, k2) => .ok (.grp lvl rect ms2, k2)
    else
      match stage5List ms t k with
      | .error er => .error er
      | .ok (ms2, k2) => .ok (.grp lvl rect ms2, k2)

def mutateMembers (ms : List Entity) (t : Tape) (k : ℕ) :
    Except PyErr (List Entity × ℕ) :=
  match ms with
  | [] => .ok ([], k)
  | .grp _ _ _ :: _ => .error .attributeError
  | .ind i :: es =>
    let (i2, k2) := i.mutate t k
    match mutateMembers es t k2 with
    | .error er => .error er
    | .ok (es2, k3) => .ok (.ind i2 :: es2, k3)

def stage5List (ms : List Entity) (t : Tape) (k : ℕ) :
    Except PyErr (List Entity × ℕ) :=
  match ms with
  | [] => .ok ([], k)
  | e :: es =>
    match stage5_mutation e t k with
    | .error er => .error er
    | .ok (e2, k2) =>
      match stage5List es t k2 with
      | .error er => .error er
      | .ok (es2, k3) => .ok (e2 :: es2, k3)

end

/-- `Simulation.run_step`: increment the stage cursor modulo 5 first,
then dispatch (0 → cooperation, 1 → punishment, 2 → learning, 3 →
competition, 4 → mutation).  The connection lists are stored only for
rendering and are dropped here. -/
def run_step (s : Simulation) (t : Tape) (k : ℕ) :
    Except PyErr (Simulation × ℕ) :=
  let st := (s.current_stage + 1) % 5
  if st == 0 then
    match stage1_cooperation s.root t k with
    | .error er => .error er
    | .ok (r2, k2) => .ok (⟨r2, st⟩, k2)
  else if st == 1 then
    match stage2_punishment s.root with
    | .error er => .error er
    | .ok (r2, _) => .ok (⟨r2, st⟩, k)
  else if st == 2 then
    match stage3_learning s.root t k with
    | .error er => .error er
    | .ok (r2, _, k2) => .ok (⟨r2, st⟩, k2)
  else if st == 3 then
    match stage4_competition s.root t k with
    | .error er => .error er
    | .ok (r2, _, k2) => .ok (⟨r2, st⟩, k2)
  else
    match stage5_mutation s.root t k with
    | .error er => .error er
    | .ok (r2, k2) => .ok (⟨r2, st⟩, k2)

/-- Payoff-range check for one individual (the invariant of §8 of the
specification). -/
def payoff_ok (i : Individual) : Bool :=
  decide ((1 : ℚ) / 100 ≤ i.payoff) && decide (i.payoff ≤ 1)

/-- All individuals of an entity satisfy the payoff-range invariant. -/
def payoffInv (e : Entity) : Bool :=
  (allInds e).all payoff_ok

/-- One `(punisher, defector)` interaction with the clamping steps
removed: the measurement model for the payoff changes `before clamping`
that the specification's punishment-completeness property quantifies. -/
def punishPairRaw (inds : List Individual) (p d n : ℕ) : List Individual :=
  let i1 := updAt inds p fun x => { x with payoff := x.payoff - PUNISHER_COST / (n : ℚ) }
  updAt i1 d fun x => { x with payoff := x.payoff - PUNISHMENT_COST / (n : ℚ) }

/-- Unclamped inner loop of stage 2 (one punisher over all defectors). -/
def stage2_inner_raw (p n : ℕ) (ds : List ℕ)
    (st : List Individual × List (ℕ × ℕ)) : List Individual × List (ℕ × ℕ) :=
  match ds with
  | [] => st
  | d :: rest => stage2_inner_raw p n rest (punishPairRaw st.1 p d n, st.2 ++ [(p, d)])

/-- Unclamped outer loop of stage 2 (all punishers). -/
def stage2_outer_raw (ds : List ℕ) (ps : List ℕ)
    (st : List Individual × List (ℕ × ℕ)) : List Individual × List (ℕ × ℕ) :=
  match ps with
  | [] => st
  | p :: rest =>
    if ds.length > 0 then
      stage2_outer_raw ds rest (stage2_inner_raw p ds.length ds st)
    else
      stage2_outer_raw ds rest st

/-- Stage 2 on the individuals of a first-order group without clamping
(pre-clamp measurement of the same update sequence). -/
def stage2_leaf_raw (inds : List Individual) :
    List Individual × List (ℕ × ℕ) :=
  stage2_outer_raw (defectorIdxs inds) (punisherIdxs inds) (inds, [])

/-- Oracle whose draws are all 0, whose choices pick index 0, and whose
shuffles are the identity permutation. -/
def tape0 : Tape := ⟨fun _ => 0, fun _ => 0, fun _ j => j⟩

/-- Oracle whose draws are all 0 and whose choices pick index 1. -/
def tape1 : Tape := ⟨fun _ => 0, fun _ => 1, fun _ j => j⟩

/-- A cooperating punisher (state after a stage-1 cycle). -/
def exPunisher : Individual := ⟨Role.PUNISHER, 1, some true, indRect0⟩

/-- A defector that did not cooperate in stage 1. -/
def exDefector : Individual := ⟨Role.DEFECTOR, 1, some false, indRect0⟩

/-- A leaf population with P = 1 punisher and D = 2 defectors. -/
def exLeafPDD : List Individual := [exPunisher, exDefector, exDefector]

/-- A first-order group of two fresh cooperators. -/
def exLeaf2 : Entity :=
  .grp 1 grpRect0 [.ind (mkIndividual Role.COOPERATOR), .ind (mkIndividual Role.COOPERATOR)]

/-- A well-formed two-level tree: two leaf groups of two cooperators. -/
def exTree22 : Entity := .grp 2 grpRect0 [exLeaf2, exLeaf2]

/-- The first positioned leaf of the tree `Simulation([1, 2])` builds
under the all-zero oracle (one fresh cooperator). -/
def exLeaf1 : Entity :=
  .grp 1 ⟨55, 105, 30, 30⟩
    [.ind ⟨Role.COOPERATOR, 1, none, ⟨60, 110, 20, 20⟩⟩]

/-- The second positioned leaf (same contents, shifted by the top-level
column width 645). -/
def exLeaf1b : Entity :=
  .grp 1 ⟨700, 105, 30, 30⟩
    [.ind ⟨Role.COOPERATOR, 1, none, ⟨705, 110, 20, 20⟩⟩]

/-- The tree `Simulation([1, 2])` builds under the all-zero oracle,
after `_calculate_positions` has laid it out. -/
def exTree12 : Entity := .grp 2 ⟨50, 100, 685, 40⟩ [exLeaf1, exLeaf1b]

/-- The freshly constructed simulation for `group_sizes = [1, 2]`. -/
def exSim12 : Simulation := ⟨exTree12, 0⟩

/-- Oracle whose draws are all 1/2 (identity choices and shuffles). -/
def tapeHalf : Tape := ⟨fun _ => 1 / 2, fun _ => 0, fun _ j => j⟩

/-- A flattened one-leaf-group state with two members, for exercising the
stage-3 loop body. -/
def exState3 : List (List Entity) :=
  [[.ind (mkIndividual Role.COOPERATOR), .ind (mkIndividual Role.DEFECTOR)]]

/-- The leaf `exLeaf2` after one cooperation stage under the all-zero
oracle: both members fail the cooperation draw (`0 > ERROR_RATE` is
false), still pay `COOPERATION_COST`, and gain nothing, ending at the
clamped payoff 4/5. -/
def exLeaf2Done : Entity :=
  .grp 1 grpRect0 [.ind ⟨Role.COOPERATOR, 4 / 5, some false, indRect0⟩,
                   .ind ⟨Role.COOPERATOR, 4 / 5, some false, indRect0⟩]

/-- C1: the claim states that every `Step()` call on a well-formed tree
succeeds, in particular that stage-4 competition never raises even when a
pair actually competes and the loser contains individuals.  The code
violates this: for `Simulation([1, 2])` with all draws 0 (so the pair
competes), the third step — the first stage-4 step — raises
`AttributeError`, because `clone_coordinates` recurses into the leaf
groups' individuals and reads their nonexistent `members` attribute. -/
theorem c1_stage4_step_raises :
    (do
      let s0 ← mkSimulation [1, 2] (33 / 100) (33 / 100) tape0 0
      let s1 ← run_step s0.1 tape0 s0.2
      let s2 ← run_step s1.1 tape0 s1.2
      run_step s2.1 tape0 s2.2) = Except.error PyErr.attributeError := by
  with_unfolding_all rfl

/-- C7: the claim states that in stage 4 the losing subgroup is replaced
in the parent's child sequence by a deep clone of the winner.  The code
never completes such a replacement: for a level-2 group of two leaf
groups of two cooperators each, with all draws 0 (the pair competes and
group 1 wins), `clone_coordinates` raises `AttributeError` before the
member list is updated, so the whole stage raises instead of replacing. -/
theorem c7_competition_raises_before_replacement :
    stage4_competition exTree22 tape0 0 = Except.error PyErr.attributeError := by
  with_unfolding_all rfl

/-- C3 counterexample: the claim states that construction fails with a
configuration error when a size entry is non-positive or when the ratio
sum exceeds 1; in the code both configurations are accepted without any
error. -/
theorem c3_counterexample :
    (mkSimulation [0] (33 / 100) (33 / 100) tape0 0).isOk = true ∧
    (mkSimulation [2] (3 / 5) (3 / 5) tape0 0).isOk = true := by
  constructor <;> with_unfolding_all rfl

/-- Helper: a successful `Except` value can be destructured. -/
theorem exists_ok_of_isOk {α : Type} {x : Except PyErr α}
    (h : x.isOk = true) : ∃ a, x = .ok a := by
  cases x with
  | error er => simp [Except.isOk, Except.toBool] at h
  | ok a => exact ⟨a, rfl⟩

/-- Helper: if every recursive hierarchy call at the child level
succeeds, so does building any number of subgroups. -/
theorem createSubgroups_ok {sizes : List ℕ} {c p : ℚ} {t : Tape} {lvl : ℕ}
    (h : ∀ k, (create_hierarchy sizes c p t k lvl).isOk = true) :
    ∀ cnt k, (createSubgroups sizes c p t k lvl cnt).isOk = true := by
  intro cnt
  induction cnt with
  | zero => intro k; simp [createSubgroups, Except.isOk, Except.toBool]
  | succ n ih =>
    intro k
    obtain ⟨⟨g, k2⟩, hc⟩ := exists_ok_of_isOk (h k)
    obtain ⟨⟨subs, k3⟩, hs⟩ := exists_ok_of_isOk (ih k2)
    simp only [createSubgroups]
    rw [hc]
    simp [hs, Except.isOk, Except.toBool]

/-- Helper: hierarchy construction succeeds for every level between 1 and
the length of the size list. -/
theorem create_hierarchy_ok :
    ∀ (lvl : ℕ) (sizes : List ℕ) (c p : ℚ) (t : Tape), 1 ≤ lvl →
    lvl ≤ sizes.length → ∀ k, (create_hierarchy sizes c p t k lvl).isOk = true := by
  intro lvl
  induction lvl using Nat.strong_induction_on with
  | _ lvl ih =>
    intro sizes c p t h1 h2 k
    match lvl, h1 with
    | 1, _ =>
      cases sizes with
      | nil => simp at h2
      | cons s0 rest => simp [create_hierarchy, Except.isOk, Except.toBool]
    | (n + 2), _ =>
      have hx : n + 1 < sizes.length := by omega
      have hcnt : sizes[n + 1]? = some sizes[n + 1] := List.getElem?_eq_getElem hx
      have hrec : ∀ k2, (create_hierarchy sizes c p t k2 (n + 1)).isOk = true :=
        fun k2 => ih (n + 1) (by omega) sizes c p t (by omega) (by omega) k2
      obtain ⟨⟨subs, k2⟩, hs⟩ := exists_ok_of_isOk (createSubgroups_ok hrec sizes[n + 1] k)
      simp only [create_hierarchy]
      rw [hcnt]
      simp [hs, Except.isOk, Except.toBool]

/-- Helper: moving an object's position changes none of its engine
fields. -/
theorem entSetXY_data (e : Entity) (x y : ℤ) :
    (allInds (entSetXY e x y)).map indData = (allInds e).map indData := by
  cases e with
  | ind i => simp [entSetXY, allInds, indData]
  | grp lvl r ms => rfl

/-- Helper: positioning the members of a leaf group keeps their engine
fields. -/
theorem placeMembers_data : ∀ (ms : List Entity) (x y : ℤ) (cols i : ℕ),
    (allIndsL (placeMembers x y cols ms i)).map indData =
      (allIndsL ms).map indData := by
  intro ms
  induction ms with
  | nil => intro x y cols i; rfl
  | cons e es ih =>
    intro x y cols i
    simp only [placeMembers, allIndsL, List.map_append, entSetXY_data, ih]

mutual

/-- Helper: a successful `_calculate_positions` call only moves geometry:
the engine fields of the individuals are unchanged, in order. -/
theorem calcPos_data : ∀ (e : Entity) (top : ℕ) (x y mw mh : ℤ)
    (e2 : Entity), calculate_positions top e x y mw mh = .ok e2 →
    (allInds e2).map indData = (allInds e).map indData
  | .ind i0 => by
    intro top x y mw mh e2 h
    cases h
  | .grp lvl r ms => by
    intro top x y mw mh e2 h
    simp only [calculate_positions] at h
    by_cases h1 : (lvl == 1) = true
    · rw [if_pos h1] at h
      cases h
      simp only [allInds]
      exact placeMembers_data ms x y _ 0
    · rw [if_neg h1] at h
      by_cases h2 : (lvl == (top : ℤ)) = true
      · rw [if_pos h2] at h
        by_cases h3 : (ms.length == 0) = true
        · rw [if_pos h3] at h
          cases h
        · rw [if_neg h3] at h
          split at h
          · cases h
          next ms2 hms2 =>
            split at h
            · cases h
            next m rest =>
              cases h
              simp only [allInds]
              exact calcPosL_data ms top _ _ _ 0 _ hms2
      · rw [if_neg h2] at h
        by_cases h4 : ((ms.length + max 1 (min (Nat.sqrt ms.length) 3) - 1) /
            max 1 (min (Nat.sqrt ms.length) 3) == 0) = true
        · rw [if_pos h4] at h
          cases h
        · rw [if_neg h4] at h
          split at h
          · cases h
          next ms2 hms2 =>
            split at h
            · cases h
            next m rest =>
              cases h
              simp only [allInds]
              exact calcPosL_data ms top _ _ _ 0 _ hms2

theorem calcPosL_data : ∀ (ms : List Entity) (top : ℕ) (pos : ℕ → ℤ × ℤ)
    (mw mh : ℤ) (i : ℕ) (ms2 : List Entity),
    calcPosL top pos mw mh ms i = .ok ms2 →
    (allIndsL ms2).map indData = (allIndsL ms).map indData
  | [] => by
    intro top pos mw mh i ms2 h
    cases h
    rfl
  | e :: es => by
    intro top pos mw mh i ms2 h
    simp only [calcPosL] at h
    split at h
    · cases h
    next e2 he =>
      split at h
      · cases h
      next es2 hes =>
        cases h
        simp only [allIndsL, List.map_append,
          calcPos_data e top _ _ _ _ _ he, calcPosL_data es top _ _ _ _ _ hes]

end

/-- Helper: the subgroup-positioning loop keeps the member count. -/
theorem calcPosL_length {top : ℕ} {pos : ℕ → ℤ × ℤ} {mw mh : ℤ} :
    ∀ {ms : List Entity} {i : ℕ} {ms2 : List Entity},
    calcPosL top pos mw mh ms i = .ok ms2 → ms2.length = ms.length := by
  intro ms
  induction ms with
  | nil =>
    intro i ms2 h
    cases h
    rfl
  | cons e es ih =>
    intro i ms2 h
    simp only [calcPosL] at h
    split at h
    · cases h
    next e2 he =>
      split at h
      · cases h
      next es2 hes =>
        cases h
        simp [ih hes]

/-- Helper: the subgroup-positioning loop cannot raise when positioning
each member succeeds at every position. -/
theorem calcPosL_ne_error {top : ℕ} {pos : ℕ → ℤ × ℤ} {mw mh : ℤ} :
    ∀ {ms : List Entity} {i : ℕ} {er : PyErr},
    (∀ e ∈ ms, ∀ (x y mw2 mh2 : ℤ),
      (calculate_positions top e x y mw2 mh2).isOk = true) →
    calcPosL top pos mw mh ms i ≠ .error er := by
  intro ms
  induction ms with
  | nil =>
    intro i er hin h
    cases h
  | cons e es ih =>
    intro i er hin h
    simp only [calcPosL] at h
    split at h
    next er2 her =>
      obtain ⟨e2, he2⟩ := exists_ok_of_isOk
        (hin e (List.mem_cons_self e es) (pos i).1 (pos i).2 mw mh)
      rw [her] at he2
      cases he2
    next e2 he =>
      split at h
      next er2 hes =>
        exact absurd hes (ih fun e3 h3 => hin e3 (List.mem_cons_of_mem e h3))
      next es2 hes =>
        cases h

/-- Helper: building `cnt` subgroups yields exactly `cnt` members. -/
theorem createSubgroups_length {sizes : List ℕ} {c p : ℚ} {t : Tape}
    {lvl : ℕ} : ∀ (cnt : ℕ) {k : ℕ} {subs : List Entity} {k3 : ℕ},
    createSubgroups sizes c p t k lvl cnt = .ok (subs, k3) →
    subs.length = cnt := by
  intro cnt
  induction cnt with
  | zero =>
    intro k subs k3 h
    simp only [createSubgroups, Except.ok.injEq, Prod.mk.injEq] at h
    obtain ⟨h1, -⟩ := h
    subst h1
    rfl
  | succ n ih =>
    intro k subs k3 h
    simp only [createSubgroups] at h
    split at h
    · cases h
    next g k2 hc =>
      split at h
      · cases h
      next subs2 k4 hs2 =>
        cases h
        simp [ih hs2]

/-- Helper: every member built by the subgroup loop is the output of some
hierarchy call at the child level. -/
theorem createSubgroups_mem {sizes : List ℕ} {c p : ℚ} {t : Tape}
    {lvl : ℕ} : ∀ (cnt : ℕ) {k : ℕ} {subs : List Entity} {k3 : ℕ},
    createSubgroups sizes c p t k lvl cnt = .ok (subs, k3) →
    ∀ e ∈ subs, ∃ k4 k5, create_hierarchy sizes c p t k4 lvl = .ok (e, k5) := by
  intro cnt
  induction cnt with
  | zero =>
    intro k subs k3 h e he
    simp only [createSubgroups, Except.ok.injEq, Prod.mk.injEq] at h
    obtain ⟨h1, -⟩ := h
    subst h1
    cases he
  | succ n ih =>
    intro k subs k3 h e he
    simp only [createSubgroups] at h
    split at h
    · cases h
    next g k2 hc =>
      split at h
      · cases h
      next subs2 k4 hs2 =>
        cases h
        rcases List.mem_cons.mp he with rfl | he2
        · exact ⟨k, k2, hc⟩
        · exact ih hs2 e he2

/-- Helper: `_calculate_positions` succeeds on every tree the hierarchy
builder produces from a size list whose non-leaf entries are all
non-zero (every non-first-order group then has members, so no division
by zero is reached), whatever the top-level marker and the available
geometry. -/
theorem calc_ok_of_create :
    ∀ (lvl : ℕ) (sizes : List ℕ) (c p : ℚ) (t : Tape) (k : ℕ) (g : Entity)
    (k2 : ℕ), create_hierarchy sizes c p t k lvl = .ok (g, k2) →
    (∀ i, 1 ≤ i → i < lvl → sizes.getD i 0 ≠ 0) →
    ∀ (top : ℕ) (x y mw mh : ℤ),
    (calculate_positions top g x y mw mh).isOk = true := by
  intro lvl
  induction lvl using Nat.strong_induction_on with
  | _ lvl ih =>
    intro sizes c p t k g k2 hcr hsz top x y mw mh
    match lvl with
    | 0 => simp [create_hierarchy] at hcr
    | 1 =>
      cases sizes with
      | nil => simp [create_hierarchy] at hcr
      | cons s0 rest =>
        simp only [create_hierarchy] at hcr
        cases hcr
        simp [calculate_positions, Except.isOk, Except.toBool]
    | (n + 2) =>
      simp only [create_hierarchy] at hcr
      split at hcr
      · cases hcr
      next cnt hcnt =>
        split at hcr
        · cases hcr
        next subs k3 hsub =>
          cases hcr
          have hlen : subs.length = cnt := createSubgroups_length cnt hsub
          have hcnt0 : cnt ≠ 0 := by
            have hx : n + 1 < sizes.length :=
              (List.getElem?_eq_some_iff.mp hcnt).1
            have hg : sizes.getD (n + 1) 0 = cnt := by
              rw [List.getD_eq_getElem?_getD, hcnt]
              rfl
            have := hsz (n + 1) (by omega) (by omega)
            omega
          have hmem : ∀ e ∈ subs, ∀ (x2 y2 mw2 mh2 : ℤ),
              (calculate_positions top e x2 y2 mw2 mh2).isOk = true := by
            intro e he x2 y2 mw2 mh2
            obtain ⟨k4, k5, hch⟩ := createSubgroups_mem cnt hsub e he
            exact ih (n + 1) (by omega) sizes c p t k4 e k5 hch
              (fun i hi1 hi2 => hsz i hi1 (by omega)) top x2 y2 mw2 mh2
          simp only [calculate_positions]
          split_ifs with h1 h2 h3 h4
          · simp [Except.isOk, Except.toBool]
          · simp only [beq_iff_eq] at h3
            omega
          · split
            next er her =>
              exact absurd her (calcPosL_ne_error hmem)
            next ms2 hms2 =>
              cases ms2 with
              | nil =>
                have h0 := calcPosL_length hms2
                simp only [List.length_nil] at h0
                omega
              | cons m rest => simp [Except.isOk, Except.toBool]
          · simp only [beq_iff_eq] at h4
            have hC1 : 1 ≤ max 1 (min (Nat.sqrt subs.length) 3) :=
              le_max_left _ _
            have hpos2 : 0 < (subs.length +
                max 1 (min (Nat.sqrt subs.length) 3) - 1) /
                max 1 (min (Nat.sqrt subs.length) 3) :=
              Nat.div_pos (by omega) (by omega)
            omega
          · split
            next er her =>
              exact absurd her (calcPosL_ne_error hmem)
            next ms2 hms2 =>
              cases ms2 with
              | nil =>
                have h0 := calcPosL_length hms2
                simp only [List.length_nil] at h0
                omega
              | cons m rest => simp [Except.isOk, Except.toBool]

/-- C3 amended: construction validates nothing and never raises a
configuration error (no such error kind exists in the code): the
hierarchy builder accepts every non-empty size list, whatever the
entries or ratios, but `__init__` then calls `_calculate_positions`,
which raises an uncaught `ZeroDivisionError` whenever a level above the
leaves has size zero.  A configuration is accepted whenever the size
list is non-empty and every entry after the first is non-zero (a zero
leaf size is accepted); an empty size list fails with an uncaught
`IndexError` from `sizes[-1]`; the configuration `Simulation([2, 0])`
fails with the uncaught `ZeroDivisionError`. -/
theorem c3_amended :
    (∀ (sizes : List ℕ) (c p : ℚ) (t : Tape) (k : ℕ), sizes ≠ [] →
      (∀ i, 1 ≤ i → i < sizes.length → sizes.getD i 0 ≠ 0) →
      (mkSimulation sizes c p t k).isOk = true) ∧
    (∀ (c p : ℚ) (t : Tape) (k : ℕ),
      mkSimulation [] c p t k = .error .indexError) ∧
    mkSimulation [2, 0] (33 / 100) (33 / 100) tape0 0 =
      .error .zeroDivisionError := by
  refine ⟨?_, ?_, ?_⟩
  · intro sizes c p t k hne hsz
    have hlen : 1 ≤ sizes.length := by
      cases sizes with
      | nil => exact absurd rfl hne
      | cons a l => simp
    have h := create_hierarchy_ok sizes.length sizes c p t hlen (le_refl _) k
    obtain ⟨⟨g, k2⟩, hc⟩ := exists_ok_of_isOk h
    obtain ⟨root2, hr2⟩ := exists_ok_of_isOk
      (calc_ok_of_create sizes.length sizes c p t k g k2 hc hsz
        sizes.length 50 100 (SCREEN_WIDTH - 100) (SCREEN_HEIGHT - 150))
    simp [mkSimulation, hc, hr2, Except.isOk, Except.toBool]
  · intro c p t k
    simp [mkSimulation, create_hierarchy]
  · with_unfolding_all rfl

/-- C3 witness: a concrete accepted configuration, the concrete empty
configuration, and a concrete zero-size non-leaf level. -/
theorem c3_amended_witness :
    (mkSimulation [1, 2] (33 / 100) (33 / 100) tape0 0).isOk = true ∧
    mkSimulation [] (33 / 100) (33 / 100) tape0 0 = .error .indexError ∧
    mkSimulation [2, 0] (33 / 100) (33 / 100) tape0 0 =
      .error .zeroDivisionError :=
  ⟨c3_amended.1 [1, 2] (33 / 100) (33 / 100) tape0 0 (by simp)
      (by
        intro i h1 h2
        simp only [List.length_cons, List.length_nil] at h2
        have h3 : i = 1 := by omega
        subst h3
        simp),
   c3_amended.2.1 (33 / 100) (33 / 100) tape0 0,
   c3_amended.2.2⟩

/-- C4 counterexample: the claim states that a Punisher never appears
when the punisher role is disabled; in the code there is no such flag at
all, and a mutation draw below `MUTATION_CHANCE` whose choice lands on
index 0 turns a cooperator into a punisher. -/
theorem c4_counterexample :
    (Individual.mutate (mkIndividual Role.COOPERATOR) tape0 0).1.role =
      Role.PUNISHER := by
  with_unfolding_all rfl

/-- C4 amended: the code threads no punisher-enabled flag through
creation or mutation; `mutate` draws uniformly from the two roles
different from the current one, so every non-punisher individual can
mutate into a punisher under suitable draws. -/
theorem c4_amended :
    ∀ i : Individual, i.role ≠ Role.PUNISHER →
    ∃ (t : Tape) (k : ℕ), (Individual.mutate i t k).1.role = Role.PUNISHER := by
  intro i h
  obtain ⟨r, p, cp, rc⟩ := i
  cases r with
  | COOPERATOR => exact ⟨tape0, 0, by with_unfolding_all rfl⟩
  | PUNISHER => exact absurd rfl h
  | DEFECTOR => exact ⟨tape1, 0, by with_unfolding_all rfl⟩

/-- C4 witness: the amended claim applied to a concrete defector. -/
theorem c4_amended_witness :
    (mkIndividual Role.DEFECTOR).role ≠ Role.PUNISHER ∧
    ∃ (t : Tape) (k : ℕ),
      (Individual.mutate (mkIndividual Role.DEFECTOR) t k).1.role = Role.PUNISHER :=
  ⟨by decide, c4_amended (mkIndividual Role.DEFECTOR) (by decide)⟩

/-- Helper: freshly created individuals have an unset cooperation flag
and the baseline payoff. -/
theorem createIndividuals_fresh :
    ∀ (cnt : ℕ) (c p : ℚ) (t : Tape) (k : ℕ),
    ∀ i ∈ allIndsL (createIndividuals cnt c p t k).1,
      i.cooperates = none ∧ i.payoff = 1 := by
  intro cnt
  induction cnt with
  | zero => intro c p t k i hi; simp [createIndividuals, allIndsL] at hi
  | succ n ih =>
    intro c p t k i hi
    simp only [createIndividuals, allIndsL, allInds] at hi
    rcases List.mem_append.mp hi with h1 | h1
    · rw [List.mem_singleton] at h1
      subst h1
      exact ⟨rfl, rfl⟩
    · exact ih c p t (k + 1) i h1

/-- Helper: subgroup construction preserves freshness of individuals. -/
theorem createSubgroups_fresh {sizes : List ℕ} {c p : ℚ} {t : Tape} {lvl : ℕ}
    (h : ∀ k g k2, create_hierarchy sizes c p t k lvl = .ok (g, k2) →
      ∀ i ∈ allInds g, i.cooperates = none ∧ i.payoff = 1) :
    ∀ cnt k subs k3, createSubgroups sizes c p t k lvl cnt = .ok (subs, k3) →
    ∀ i ∈ allIndsL subs, i.cooperates = none ∧ i.payoff = 1 := by
  intro cnt
  induction cnt with
  | zero =>
    intro k subs k3 hs i hi
    simp only [createSubgroups, Except.ok.injEq, Prod.mk.injEq] at hs
    obtain ⟨h1, -⟩ := hs
    subst h1
    simp [allIndsL] at hi
  | succ n ih =>
    intro k subs k3 hs i hi
    simp only [createSubgroups] at hs
    split at hs
    · cases hs
    next g k2 hc =>
      split at hs
      · cases hs
      next subs2 k4 hs2 =>
        cases hs
        simp only [allIndsL] at hi
        rcases List.mem_append.mp hi with h1 | h1
        · exact h k g k2 hc i h1
        · exact ih k2 subs2 _ hs2 i h1

/-- Helper: every individual of a freshly constructed hierarchy has an
unset cooperation flag and payoff 1. -/
theorem create_hierarchy_fresh :
    ∀ (lvl : ℕ) (sizes : List ℕ) (c p : ℚ) (t : Tape) (k : ℕ) (g : Entity) (k2 : ℕ),
    create_hierarchy sizes c p t k lvl = .ok (g, k2) →
    ∀ i ∈ allInds g, i.cooperates = none ∧ i.payoff = 1 := by
  intro lvl
  induction lvl using Nat.strong_induction_on with
  | _ lvl ih =>
    intro sizes c p t k g k2 hcr i hi
    match lvl with
    | 0 => simp [create_hierarchy] at hcr
    | 1 =>
      cases sizes with
      | nil => simp [create_hierarchy] at hcr
      | cons s0 rest =>
        simp only [create_hierarchy] at hcr
        cases hcr
        simp only [allInds] at hi
        exact createIndividuals_fresh s0 c p t k i hi
    | (n + 2) =>
      simp only [create_hierarchy] at hcr
      split at hcr
      · cases hcr
      next cnt hcnt =>
        split at hcr
        · cases hcr
        next subs k3 hsub =>
          cases hcr
          simp only [allInds] at hi
          exact createSubgroups_fresh
            (fun k4 g2 k5 hc => ih (n + 1) (by omega) sizes c p t k4 g2 k5 hc)
            cnt k subs _ hsub i hi

/-- C9: the stage cursor starts at 0 and is incremented before dispatch,
so the very first `run_step` after construction executes stage index 1,
the punishment stage, not cooperation; at that point every constructed
individual still has its `cooperates` flag unset, and stage 2 classifies
every member of a leaf group whose flag is unset as a defector (the
defector index list is the whole member range). -/
theorem c9_first_step_runs_punishment :
    (∀ (sizes : List ℕ) (c p : ℚ) (t : Tape) (k : ℕ) (s : Simulation) (k2 : ℕ),
      mkSimulation sizes c p t k = .ok (s, k2) →
      s.current_stage = 0 ∧
      (∀ (t2 : Tape) (k3 : ℕ), run_step s t2 k3 =
        match stage2_punishment s.root with
        | .error er => .error er
        | .ok (r2, _) => .ok (⟨r2, 1⟩, k3)) ∧
      ∀ i ∈ allInds s.root, i.cooperates = none) ∧
    (∀ inds : List Individual, (∀ i ∈ inds, i.cooperates = none) →
      defectorIdxs inds = List.range inds.length) := by
  constructor
  · intro sizes c p t k s k2 h
    simp only [mkSimulation] at h
    split at h
    · cases h
    next root k3 hroot =>
      split at h
      · cases h
      next root2 hpos =>
        cases h
        refine ⟨rfl, fun t2 k3 => rfl, fun i hi => ?_⟩
        have hd := calcPos_data root sizes.length 50 100 (SCREEN_WIDTH - 100)
          (SCREEN_HEIGHT - 150) root2 hpos
        have hmm : indData i ∈ (allInds root).map indData := by
          rw [← hd]
          exact List.mem_map_of_mem _ hi
        obtain ⟨i0, hi0, he⟩ := List.mem_map.mp hmm
        have h0 := (create_hierarchy_fresh sizes.length sizes c p t k root _
          hroot i0 hi0).1
        have hco := congrArg (fun v => v.2.2) he
        simp only [indData] at hco
        rw [← hco, h0]
  · intro inds hnone
    unfold defectorIdxs
    apply List.filter_eq_self.mpr
    intro j hj
    rw [List.mem_range] at hj
    have hmem : inds.getD j default ∈ inds := by
      rw [List.getD_eq_getElem?_getD, List.getElem?_eq_getElem hj]
      exact List.getElem_mem hj
    rw [hnone _ hmem]
    rfl

/-- C9 witness: the concrete `[1, 2]` simulation under the all-zero
oracle, and a concrete fresh leaf population. -/
theorem c9_witness :
    (exSim12.current_stage = 0 ∧
      (∀ (t2 : Tape) (k3 : ℕ), run_step exSim12 t2 k3 =
        match stage2_punishment exSim12.root with
        | .error er => .error er
        | .ok (r2, _) => .ok (⟨r2, 1⟩, k3)) ∧
      ∀ i ∈ allInds exSim12.root, i.cooperates = none) ∧
    defectorIdxs [mkIndividual Role.COOPERATOR] = List.range 1 :=
  ⟨c9_first_step_runs_punishment.1 [1, 2] (33 / 100) (33 / 100) tape0 0 exSim12 2
      (by with_unfolding_all rfl),
   c9_first_step_runs_punishment.2 [mkIndividual Role.COOPERATOR]
      (by intro i hi; rw [List.mem_singleton] at hi; subst hi; rfl)⟩

/-- C5: on a leaf group, stage 1 first runs the cooperation draws, then
adds the same gain `(c + 0.6*c) / n / 3` — with `c` the number of members
of role Cooperator whose flag is set and `n` the group size — to the
payoff of every member (cooperators, punishers and defectors alike), and
clamps each payoff into [0.01, 1.00]. -/
theorem c5_stage1_gain (rect : Rect) (ms : List Entity) (inds : List Individual)
    (t : Tape) (k : ℕ) (h1 : asIndL ms = .ok inds) (h2 : ms ≠ []) :
    stage1_cooperation (.grp 1 rect ms) t k =
      (let dr := stage1_draws inds t k
       let c : ℚ := ((dr.1.filter fun m =>
         decide (m.role = Role.COOPERATOR) && truthy m.cooperates).length : ℚ)
       let gain := (c + (6 / 10) * c) / (ms.length : ℚ) / 3
       .ok (.grp 1 rect
         (dr.1.map fun i => Entity.ind { i with payoff := min (max (i.payoff + gain) (1 / 100)) 1 }),
         dr.2)) := by
  have hlen : ¬ ms.length = 0 := by
    intro h
    exact h2 (List.length_eq_zero.mp h)
  simp only [stage1_cooperation, stage1_leaf, sanitize_payoff, h1, if_neg hlen]
  norm_num [List.map_map]

/-- C5 witness: a concrete two-member leaf group (one cooperator, one
defector) under the all-zero oracle. -/
theorem c5_witness :
    stage1_cooperation (.grp 1 grpRect0
      [.ind (mkIndividual Role.COOPERATOR), .ind (mkIndividual Role.DEFECTOR)]) tape0 0 =
      .ok (.grp 1 grpRect0
        [.ind ⟨Role.COOPERATOR, 4 / 5, some false, indRect0⟩,
         .ind ⟨Role.DEFECTOR, 1, some false, indRect0⟩], 1) := by
  rw [c5_stage1_gain grpRect0 _
    [mkIndividual Role.COOPERATOR, mkIndividual Role.DEFECTOR] tape0 0
    (by with_unfolding_all rfl) (by simp)]
  with_unfolding_all rfl

/-- C8: in stage 3 an individual with a selected partner adopts the
partner's role with probability `p_partner / (p_partner + p_self)`, both
payoffs floored at 0.01, and the (individual, partner) connection is
recorded exactly on adoption; an individual without an eligible partner —
sole member of its leaf group in the within-group branch, or only one
leaf group present in the between-group branch — is skipped, adopting
nothing and emitting no pair. -/
theorem c8_learning_adoption :
    (∀ (state : List (List Entity)) (g m : ℕ) (t : Tape) (k : ℕ),
      ¬ t.q k < MIGRATION_RATE → (state.getD g []).length = 1 → m = 0 →
      stage3_body state g m t k = .ok (state, none, k + 1)) ∧
    (∀ (state : List (List Entity)) (g m : ℕ) (t : Tape) (k : ℕ),
      t.q k < MIGRATION_RATE → state.length = 1 → g = 0 →
      stage3_body state g m t k = .ok (state, none, k + 1)) ∧
    (∀ (state : List (List Entity)) (g m : ℕ) (t : Tape) (k pg pm k1 : ℕ)
      (si pi : Individual),
      stage3_partner state g m t k = .ok (some (pg, pm), k1) →
      (state.getD g [])[m]? = some (.ind si) →
      (state.getD pg [])[pm]? = some (.ind pi) →
      stage3_body state g m t k =
        if t.q k1 <
            max pi.payoff (1 / 100) / (max pi.payoff (1 / 100) + max si.payoff (1 / 100))
        then .ok (setEnt state g m (.ind { si with role := pi.role }),
                  some ((g, m), (pg, pm)), k1 + 1)
        else .ok (state, none, k1 + 1)) := by
  refine ⟨?_, ?_, ?_⟩
  · intro state g m t k hq hlen hm
    subst hm
    simp only [List.getD_eq_getElem?_getD] at hlen
    have hpart : stage3_partner state g 0 t k = .ok (none, k + 1) := by
      simp [stage3_partner, if_neg hq, hlen]
    simp [stage3_body, hpart]
  · intro state g m t k hq hlen hg
    subst hg
    have hpart : stage3_partner state 0 m t k = .ok (none, k + 1) := by
      simp [stage3_partner, if_pos hq, hlen]
    simp [stage3_body, hpart]
  · intro state g m t k pg pm k1 si pi hpart hself hpartner
    simp only [stage3_body, hpart, hself, hpartner, entPayoff, entRole, entSetRole]

/-- C8 witness: a two-member leaf group under the all-1/2 oracle; the
within-group branch selects the other member and the adoption draw 1/2
fails against the ratio 1/2, so nothing is adopted and no pair is
emitted. -/
theorem c8_witness :
    stage3_body exState3 0 0 tapeHalf 0 = .ok (exState3, none, 3) := by
  rw [c8_learning_adoption.2.2 exState3 0 0 tapeHalf 0 0 1 2
    (mkIndividual Role.COOPERATOR) (mkIndividual Role.DEFECTOR)
    (by with_unfolding_all rfl) (by with_unfolding_all rfl) (by with_unfolding_all rfl)]
  with_unfolding_all rfl

/-- Helper: `updAt` keeps the list length. -/
theorem updAt_length : ∀ (l : List Individual) (p : ℕ) (f : Individual → Individual),
    (updAt l p f).length = l.length := by
  intro l
  induction l with
  | nil => intro p f; rfl
  | cons x xs ih =>
    intro p f
    cases p with
    | zero => rfl
    | succ n => simp [updAt, ih]

/-- Helper: `updAt` at the updated (in-range) position. -/
theorem getD_updAt_self : ∀ (l : List Individual) (p : ℕ) (f : Individual → Individual)
    (d : Individual), p < l.length → (updAt l p f).getD p d = f (l.getD p d) := by
  intro l
  induction l with
  | nil => intro p f d h; simp at h
  | cons x xs ih =>
    intro p f d h
    cases p with
    | zero => rfl
    | succ n =>
      simp only [updAt, List.getD_cons_succ]
      exact ih n f d (by simpa using h)

/-- Helper: `updAt` away from the updated position. -/
theorem getD_updAt_ne : ∀ (l : List Individual) (p j : ℕ) (f : Individual → Individual)
    (d : Individual), p ≠ j → (updAt l p f).getD j d = l.getD j d := by
  intro l
  induction l with
  | nil => intro p j f d h; cases p <;> rfl
  | cons x xs ih =>
    intro p j f d h
    cases p with
    | zero =>
      cases j with
      | zero => exact absurd rfl h
      | succ m => rfl
    | succ n =>
      cases j with
      | zero => rfl
      | succ m =>
        simp only [updAt, List.getD_cons_succ]
        exact ih n m f d (by omega)

/-- Helper: the raw pair update keeps the length. -/
theorem punishPairRaw_length (inds : List Individual) (p d n : ℕ) :
    (punishPairRaw inds p d n).length = inds.length := by
  simp [punishPairRaw, updAt_length]

/-- Helper: the raw pair update subtracts the per-entry amounts from the
punisher and the defector slots and touches nothing else. -/
theorem punishPairRaw_payoff (inds : List Individual) (p d n j : ℕ)
    (dflt : Individual) (hp : p < inds.length) (hd : d < inds.length)
    (hj : j < inds.length) :
    ((punishPairRaw inds p d n).getD j dflt).payoff =
      (inds.getD j dflt).payoff
        - (if j = p then PUNISHER_COST / (n : ℚ) else 0)
        - (if j = d then PUNISHMENT_COST / (n : ℚ) else 0) := by
  unfold punishPairRaw
  by_cases h1 : j = p
  · subst h1
    by_cases h2 : j = d
    · subst h2
      rw [getD_updAt_self _ _ _ _ (by rw [updAt_length]; omega),
        getD_updAt_self _ _ _ _ hp]
      simp
    · rw [getD_updAt_ne _ _ _ _ _ (by omega), getD_updAt_self _ _ _ _ hp]
      simp [h2]
  · by_cases h2 : j = d
    · subst h2
      rw [getD_updAt_self _ _ _ _ (by rw [updAt_length]; omega),
        getD_updAt_ne _ _ _ _ _ (by omega)]
      simp [h1]
    · rw [getD_updAt_ne _ _ _ _ _ (by omega), getD_updAt_ne _ _ _ _ _ (by omega)]
      simp [h1, h2]

/-- Helper: the inner raw loop over the defectors of one punisher:
connections extend by the `(p, d)` pairs in order, and a slot loses the
punisher amount once per defector and the defector amount once per
occurrence in the defector list. -/
theorem stage2_inner_raw_spec : ∀ (ds : List ℕ) (p n : ℕ)
    (st : List Individual × List (ℕ × ℕ)) (dflt : Individual),
    p < st.1.length → (∀ d ∈ ds, d < st.1.length) →
    (stage2_inner_raw p n ds st).1.length = st.1.length ∧
    (stage2_inner_raw p n ds st).2 = st.2 ++ ds.map (fun d => (p, d)) ∧
    ∀ j < st.1.length,
      ((stage2_inner_raw p n ds st).1.getD j dflt).payoff =
        (st.1.getD j dflt).payoff
          - (if j = p then (ds.length : ℚ) * (PUNISHER_COST / (n : ℚ)) else 0)
          - (ds.count j : ℚ) * (PUNISHMENT_COST / (n : ℚ)) := by
  intro ds
  induction ds with
  | nil =>
    intro p n st dflt hp hds
    refine ⟨rfl, by simp [stage2_inner_raw], ?_⟩
    intro j hj
    simp [stage2_inner_raw]
  | cons d rest ih =>
    intro p n st dflt hp hds
    have hd : d < st.1.length := hds d (List.mem_cons_self d rest)
    have hlen : (punishPairRaw st.1 p d n).length = st.1.length :=
      punishPairRaw_length st.1 p d n
    have hrec := ih p n (punishPairRaw st.1 p d n, st.2 ++ [(p, d)]) dflt
      (by rw [hlen]; exact hp)
      (by intro a ha; rw [hlen]; exact hds a (List.mem_cons_of_mem d ha))
    refine ⟨?_, ?_, ?_⟩
    · simp only [stage2_inner_raw]
      rw [hrec.1, hlen]
    · simp only [stage2_inner_raw]
      rw [hrec.2.1]
      simp
    · intro j hj
      simp only [stage2_inner_raw]
      rw [hrec.2.2 j (by simpa [hlen] using hj),
        punishPairRaw_payoff st.1 p d n j dflt hp hd hj]
      simp only [List.count_cons, List.length_cons, beq_iff_eq]
      split_ifs <;> first | (push_cast; ring1) | (exfalso; omega)

/-- Helper: the outer raw loop over all punishers: connections are the
punisher-defector product in emission order, and a slot loses the
punisher total once per occurrence among the punishers plus the defector
share once per punisher for each occurrence among the defectors. -/
theorem stage2_outer_raw_spec : ∀ (ps ds : List ℕ)
    (st : List Individual × List (ℕ × ℕ)) (dflt : Individual),
    (∀ p ∈ ps, p < st.1.length) → (∀ d ∈ ds, d < st.1.length) →
    (stage2_outer_raw ds ps st).1.length = st.1.length ∧
    (stage2_outer_raw ds ps st).2 =
      st.2 ++ ps.flatMap (fun p => ds.map (fun d => (p, d))) ∧
    ∀ j < st.1.length,
      ((stage2_outer_raw ds ps st).1.getD j dflt).payoff =
        (st.1.getD j dflt).payoff
          - (ps.count j : ℚ) * ((ds.length : ℚ) * (PUNISHER_COST / (ds.length : ℚ)))
          - (ps.length : ℚ) * (ds.count j : ℚ) * (PUNISHMENT_COST / (ds.length : ℚ)) := by
  intro ps
  induction ps with
  | nil =>
    intro ds st dflt hps hds
    refine ⟨rfl, by simp [stage2_outer_raw], ?_⟩
    intro j hj
    simp [stage2_outer_raw]
  | cons p rest ih =>
    intro ds st dflt hps hds
    have hp : p < st.1.length := hps p (List.mem_cons_self p rest)
    have hrest : ∀ a ∈ rest, a < st.1.length :=
      fun a ha => hps a (List.mem_cons_of_mem p ha)
    by_cases hds0 : ds.length > 0
    · have hinner := stage2_inner_raw_spec ds p ds.length st dflt hp hds
      have hrec := ih ds (stage2_inner_raw p ds.length ds st) dflt
        (by rw [hinner.1]; exact hrest)
        (by rw [hinner.1]; exact hds)
      simp only [stage2_outer_raw, if_pos hds0]
      refine ⟨by rw [hrec.1, hinner.1], ?_, ?_⟩
      · rw [hrec.2.1, hinner.2.1]
        simp [List.flatMap_cons]
      · intro j hj
        rw [hrec.2.2 j (by rw [hinner.1]; exact hj),
          hinner.2.2 j hj]
        simp only [List.count_cons, List.length_cons, beq_iff_eq]
        split_ifs <;> first | (push_cast; ring1) | (exfalso; omega)
    · have hdsnil : ds = [] := List.length_eq_zero.mp (by omega)
      subst hdsnil
      have hrec := ih [] st dflt hrest hds
      simp only [stage2_outer_raw]
      rw [if_neg hds0]
      refine ⟨hrec.1, ?_, ?_⟩
      · rw [hrec.2.1]
        simp
      · intro j hj
        rw [hrec.2.2 j hj]
        simp

/-- Helper: punisher indices are in range. -/
theorem punisherIdxs_lt (inds : List Individual) :
    ∀ j ∈ punisherIdxs inds, j < inds.length := by
  intro j hj
  rw [punisherIdxs, List.mem_filter, List.mem_range] at hj
  exact hj.1

/-- Helper: defector indices are in range. -/
theorem defectorIdxs_lt (inds : List Individual) :
    ∀ j ∈ defectorIdxs inds, j < inds.length := by
  intro j hj
  rw [defectorIdxs, List.mem_filter, List.mem_range] at hj
  exact hj.1

/-- Helper: membership in the punisher index list. -/
theorem mem_punisherIdxs (inds : List Individual) (j : ℕ) :
    j ∈ punisherIdxs inds ↔
      j < inds.length ∧ (inds.getD j default).role = Role.PUNISHER := by
  rw [punisherIdxs, List.mem_filter, List.mem_range]
  simp

/-- Helper: membership in the defector index list. -/
theorem mem_defectorIdxs (inds : List Individual) (j : ℕ) :
    j ∈ defectorIdxs inds ↔
      j < inds.length ∧ truthy (inds.getD j default).cooperates = false := by
  rw [defectorIdxs, List.mem_filter, List.mem_range]
  simp

/-- Helper: the index lists have no duplicates. -/
theorem punisherIdxs_nodup (inds : List Individual) :
    (punisherIdxs inds).Nodup :=
  List.Nodup.filter _ (List.nodup_range _)

theorem defectorIdxs_nodup (inds : List Individual) :
    (defectorIdxs inds).Nodup :=
  List.Nodup.filter _ (List.nodup_range _)

/-- Helper: the clamped pair update keeps the length. -/
theorem punishPair_length (inds : List Individual) (p d n : ℕ) :
    (punishPair inds p d n).length = inds.length := by
  simp [punishPair, updAt_length]

/-- Helper: the clamped inner loop emits the same connection pairs as the
raw one and keeps the length. -/
theorem stage2_inner_conns : ∀ (ds : List ℕ) (p n : ℕ)
    (st : List Individual × List (ℕ × ℕ)),
    (stage2_inner p n ds st).2 = st.2 ++ ds.map (fun d => (p, d)) ∧
    (stage2_inner p n ds st).1.length = st.1.length := by
  intro ds
  induction ds with
  | nil => intro p n st; exact ⟨by simp [stage2_inner], rfl⟩
  | cons d rest ih =>
    intro p n st
    have hrec := ih p n (punishPair st.1 p d n, st.2 ++ [(p, d)])
    refine ⟨?_, ?_⟩
    · simp only [stage2_inner]
      rw [hrec.1]
      simp
    · simp only [stage2_inner]
      rw [hrec.2]
      simp [punishPair_length]

/-- Helper: the clamped outer loop emits the punisher-defector product
as its connection list. -/
theorem stage2_outer_conns : ∀ (ps ds : List ℕ)
    (st : List Individual × List (ℕ × ℕ)),
    (stage2_outer ds ps st).2 =
      st.2 ++ ps.flatMap (fun p => ds.map (fun d => (p, d))) := by
  intro ps
  induction ps with
  | nil => intro ds st; simp [stage2_outer]
  | cons p rest ih =>
    intro ds st
    by_cases hds0 : ds.length > 0
    · simp only [stage2_outer, if_pos hds0]
      rw [ih ds (stage2_inner p ds.length ds st), (stage2_inner_conns ds p ds.length st).1]
      simp [List.flatMap_cons]
    · have hdsnil : ds = [] := List.length_eq_zero.mp (by omega)
      subst hdsnil
      simp only [stage2_outer]
      rw [if_neg hds0, ih [] st]
      simp

/-- Helper: projecting a list of wrapped individuals succeeds. -/
theorem asIndL_map_ind : ∀ inds : List Individual,
    asIndL (inds.map Entity.ind) = .ok inds := by
  intro inds
  induction inds with
  | nil => rfl
  | cons i rest ih => simp [asIndL, ih]

/-- Helper: stage 2 on a leaf of wrapped individuals succeeds and its
connection list is the punisher-defector product. -/
theorem stage2_leaf_ok (inds : List Individual) :
    stage2_leaf (inds.map Entity.ind) =
      .ok ((stage2_outer (defectorIdxs inds) (punisherIdxs inds) (inds, [])).1.map Entity.ind,
        (punisherIdxs inds).flatMap fun p => (defectorIdxs inds).map fun d => (p, d)) := by
  simp only [stage2_leaf, asIndL_map_ind]
  rw [show (stage2_outer (defectorIdxs inds) (punisherIdxs inds) (inds, [])).2 =
      (punisherIdxs inds).flatMap (fun p => (defectorIdxs inds).map fun d => (p, d)) from by
    rw [stage2_outer_conns]
    simp]

/-- C2 counterexample: a leaf group with one cooperating punisher and two
defectors; the claim predicts each defector's pre-clamp payoff drops by
the full `punishment_cost` (from 1 to 0.2), but the code divides by the
defector count, so each defector ends at 0.6. -/
theorem c2_counterexample :
    (stage2_leaf_raw exLeafPDD).1 =
      [⟨Role.PUNISHER, 4 / 5, some true, indRect0⟩,
       ⟨Role.DEFECTOR, 3 / 5, some false, indRect0⟩,
       ⟨Role.DEFECTOR, 3 / 5, some false, indRect0⟩] ∧
    (stage2_leaf_raw exLeafPDD).2 = [(0, 1), (0, 2)] ∧
    (3 / 5 : ℚ) ≠ 1 - PUNISHMENT_COST := by
  refine ⟨by with_unfolding_all rfl, by with_unfolding_all rfl, ?_⟩
  with_unfolding_all decide

/-- C2 amended: with P punishers and D > 0 defectors in a leaf group,
stage 2 emits exactly the P × D punisher-defector pairs; measured before
clamping, each individual loses `punisher_cost` if it is a punisher
(`punisher_cost / D` per defector) plus `P * punishment_cost / D` if it
is a defector (`punishment_cost / D` per punisher — not
`punishment_cost / P` as claimed, so a defector's total loss is
`P * punishment_cost / D`, which equals `punishment_cost` only when
P = D). -/
theorem c2_amended (inds : List Individual)
    (hD : 0 < (defectorIdxs inds).length) :
    ((stage2_leaf_raw inds).2 =
      (punisherIdxs inds).flatMap fun p => (defectorIdxs inds).map fun d => (p, d)) ∧
    (stage2_leaf_raw inds).2.length =
      (punisherIdxs inds).length * (defectorIdxs inds).length ∧
    (∀ j < inds.length,
      ((stage2_leaf_raw inds).1.getD j default).payoff =
        (inds.getD j default).payoff
          - (if (inds.getD j default).role = Role.PUNISHER then PUNISHER_COST else 0)
          - (if truthy (inds.getD j default).cooperates = false then
              ((punisherIdxs inds).length : ℚ) *
                (PUNISHMENT_COST / ((defectorIdxs inds).length : ℚ))
            else 0)) := by
  have hspec := stage2_outer_raw_spec (punisherIdxs inds) (defectorIdxs inds)
    (inds, []) default (punisherIdxs_lt inds) (defectorIdxs_lt inds)
  have hD0 : ((defectorIdxs inds).length : ℚ) ≠ 0 :=
    Nat.cast_ne_zero.mpr (by omega)
  refine ⟨?_, ?_, ?_⟩
  · rw [stage2_leaf_raw, hspec.2.1]
    simp
  · rw [stage2_leaf_raw, hspec.2.1]
    simp [List.length_flatMap, Function.comp_def, List.map_const',
      List.sum_replicate, smul_eq_mul, Nat.mul_comm]
  · intro j hj
    rw [stage2_leaf_raw, hspec.2.2 j hj,
      List.count_eq_of_nodup (punisherIdxs_nodup inds),
      List.count_eq_of_nodup (defectorIdxs_nodup inds)]
    have hpiff := mem_punisherIdxs inds j
    have hdiff := mem_defectorIdxs inds j
    by_cases hp : j ∈ punisherIdxs inds <;> by_cases hd : j ∈ defectorIdxs inds
    · rw [if_pos hp, if_pos hd, if_pos (hpiff.mp hp).2, if_pos (hdiff.mp hd).2]
      push_cast
      field_simp
      try ring1
    · rw [if_pos hp, if_neg hd, if_pos (hpiff.mp hp).2,
        if_neg (fun hc => hd (hdiff.mpr ⟨hj, hc⟩))]
      push_cast
      field_simp
      try ring1
    · rw [if_neg hp, if_pos hd, if_neg (fun hc => hp (hpiff.mpr ⟨hj, hc⟩)),
        if_pos (hdiff.mp hd).2]
      push_cast
      try ring1
    · rw [if_neg hp, if_neg hd, if_neg (fun hc => hp (hpiff.mpr ⟨hj, hc⟩)),
        if_neg (fun hc => hd (hdiff.mpr ⟨hj, hc⟩))]
      push_cast
      try ring1

/-- C2 witness: the pair count at the concrete one-punisher,
two-defector leaf population. -/
theorem c2_amended_witness :
    (stage2_leaf_raw exLeafPDD).2.length =
      (punisherIdxs exLeafPDD).length * (defectorIdxs exLeafPDD).length :=
  (c2_amended exLeafPDD (by with_unfolding_all decide)).2.1

/-- C10: a punisher whose `cooperates` flag is falsy is in both the
punisher and the defector list of its leaf group, the `(j, j)` self-pair
is emitted by stage 2, and (before clamping) its payoff decreases both by
`punisher_cost` as a punisher and by the defector share
`P * punishment_cost / D` as a defector. -/
theorem c10_self_punishment (inds : List Individual) (j : ℕ)
    (hj : j < inds.length)
    (hrole : (inds.getD j default).role = Role.PUNISHER)
    (hcoop : truthy (inds.getD j default).cooperates = false) :
    j ∈ punisherIdxs inds ∧ j ∈ defectorIdxs inds ∧
    (j, j) ∈ (stage2_leaf_raw inds).2 ∧
    (∀ ms2 cs, stage2_leaf (inds.map Entity.ind) = .ok (ms2, cs) → (j, j) ∈ cs) ∧
    ((stage2_leaf_raw inds).1.getD j default).payoff =
      (inds.getD j default).payoff - PUNISHER_COST
        - ((punisherIdxs inds).length : ℚ) *
          (PUNISHMENT_COST / ((defectorIdxs inds).length : ℚ)) := by
  have hmemp : j ∈ punisherIdxs inds := (mem_punisherIdxs inds j).mpr ⟨hj, hrole⟩
  have hmemd : j ∈ defectorIdxs inds := (mem_defectorIdxs inds j).mpr ⟨hj, hcoop⟩
  have hD : 0 < (defectorIdxs inds).length :=
    List.length_pos.mpr (List.ne_nil_of_mem hmemd)
  have hspec := stage2_outer_raw_spec (punisherIdxs inds) (defectorIdxs inds)
    (inds, []) default (punisherIdxs_lt inds) (defectorIdxs_lt inds)
  have hD0 : ((defectorIdxs inds).length : ℚ) ≠ 0 :=
    Nat.cast_ne_zero.mpr (by omega)
  refine ⟨hmemp, hmemd, ?_, ?_, ?_⟩
  · rw [stage2_leaf_raw, hspec.2.1]
    simp only [List.nil_append]
    exact List.mem_flatMap.mpr ⟨j, hmemp, List.mem_map.mpr ⟨j, hmemd, rfl⟩⟩
  · intro ms2 cs hok
    rw [stage2_leaf_ok inds] at hok
    cases hok
    exact List.mem_flatMap.mpr ⟨j, hmemp, List.mem_map.mpr ⟨j, hmemd, rfl⟩⟩
  · rw [stage2_leaf_raw, hspec.2.2 j hj,
      List.count_eq_of_nodup (punisherIdxs_nodup inds),
      List.count_eq_of_nodup (defectorIdxs_nodup inds),
      if_pos hmemp, if_pos hmemd]
    push_cast
    field_simp
    try ring1

/-- C10 witness: the concrete population with one non-cooperating
punisher and one defector. -/
theorem c10_witness :
    (0 ∈ punisherIdxs [⟨Role.PUNISHER, 1, some false, indRect0⟩, exDefector] ∧
      0 ∈ defectorIdxs [⟨Role.PUNISHER, 1, some false, indRect0⟩, exDefector] ∧
      (0, 0) ∈ (stage2_leaf_raw [⟨Role.PUNISHER, 1, some false, indRect0⟩, exDefector]).2 ∧
      (∀ ms2 cs,
        stage2_leaf ([⟨Role.PUNISHER, 1, some false, indRect0⟩, exDefector].map Entity.ind) =
          .ok (ms2, cs) → (0, 0) ∈ cs) ∧
      ((stage2_leaf_raw [⟨Role.PUNISHER, 1, some false, indRect0⟩, exDefector]).1.getD 0
          default).payoff =
        (([⟨Role.PUNISHER, 1, some false, indRect0⟩, exDefector] :
            List Individual).getD 0 default).payoff - PUNISHER_COST
          - ((punisherIdxs [⟨Role.PUNISHER, 1, some false, indRect0⟩, exDefector]).length : ℚ) *
            (PUNISHMENT_COST /
              ((defectorIdxs [⟨Role.PUNISHER, 1, some false, indRect0⟩, exDefector]).length : ℚ))) :=
  c10_self_punishment [⟨Role.PUNISHER, 1, some false, indRect0⟩, exDefector] 0
    (by decide) (by with_unfolding_all rfl) (by with_unfolding_all rfl)

/-- Helper: the payoff invariant as a membership statement. -/
theorem payoffInv_iff (e : Entity) :
    payoffInv e = true ↔ ∀ i ∈ allInds e, payoff_ok i = true := by
  simp [payoffInv, List.all_eq_true]

/-- Helper: a clamped payoff always satisfies the invariant. -/
theorem payoff_ok_sanitize (x : ℚ) (i : Individual) :
    payoff_ok { i with payoff := sanitize_payoff x } = true := by
  unfold payoff_ok sanitize_payoff
  rw [Bool.and_eq_true, decide_eq_true_iff, decide_eq_true_iff]
  exact ⟨le_min (le_max_right _ _) (by norm_num), min_le_right _ _⟩

/-- Helper: collecting individuals distributes over append. -/
theorem allIndsL_append : ∀ l1 l2 : List Entity,
    allIndsL (l1 ++ l2) = allIndsL l1 ++ allIndsL l2 := by
  intro l1 l2
  induction l1 with
  | nil => rfl
  | cons e es ih => simp [allIndsL, ih]

/-- Helper: collecting individuals of wrapped individuals is the list
itself. -/
theorem allIndsL_map_ind : ∀ inds : List Individual,
    allIndsL (inds.map Entity.ind) = inds := by
  intro inds
  induction inds with
  | nil => rfl
  | cons i rest ih => simp [allIndsL, allInds, ih]

/-- Helper: a successful projection to individuals collects exactly
those individuals. -/
theorem asIndL_allIndsL : ∀ (ms : List Entity) (inds : List Individual),
    asIndL ms = .ok inds → allIndsL ms = inds := by
  intro ms
  induction ms with
  | nil => intro inds h; cases h; rfl
  | cons e es ih =>
    intro inds h
    cases e with
    | ind i =>
      simp only [asIndL] at h
      split at h
      · cases h
      next rest hrest =>
        cases h
        simp [allIndsL, allInds, ih rest hrest]
    | grp lvl r sms => cases h

/-- Helper: stage 1 on a leaf group leaves every member clamped. -/
theorem stage1_leaf_inv (ms : List Entity) (t : Tape) (k : ℕ)
    (ms2 : List Entity) (k2 : ℕ) (h : stage1_leaf ms t k = .ok (ms2, k2)) :
    ∀ i ∈ allIndsL ms2, payoff_ok i = true := by
  unfold stage1_leaf at h
  split at h
  · cases h
  next inds hinds =>
    split at h
    next inds1 k1 hdraws =>
      by_cases hn : ms.length = 0
      · rw [if_pos hn] at h
        cases h
      · rw [if_neg hn] at h
        cases h
        intro i hi
        rw [allIndsL_map_ind] at hi
        obtain ⟨i0, -, rfl⟩ := List.mem_map.mp hi
        exact payoff_ok_sanitize _ i0

/-- Helper: the member recursion of stage 1 preserves the invariant,
given it at smaller heights. -/
theorem stage1List_inv (H : ℕ)
    (IH : ∀ e : Entity, heightE e ≤ H → ∀ t k e2 k2,
      stage1_cooperation e t k = .ok (e2, k2) → payoffInv e2 = true) :
    ∀ ms, heightL ms ≤ H → ∀ t k ms2 k2, stage1List ms t k = .ok (ms2, k2) →
    ∀ i ∈ allIndsL ms2, payoff_ok i = true := by
  intro ms
  induction ms with
  | nil =>
    intro hh t k ms2 k2 h
    cases h
    intro i hi
    cases hi
  | cons e es ih =>
    intro hh t k ms2 k2 h
    simp only [stage1List] at h
    split at h
    · cases h
    next e2 k3 he =>
      split at h
      · cases h
      next es2 k4 hes =>
        cases h
        intro i hi
        rw [allIndsL] at hi
        rcases List.mem_append.mp hi with h1 | h1
        · have := IH e (by simp only [heightL] at hh; omega) t k e2 _ he
          exact (payoffInv_iff e2).mp this i h1
        · exact ih (by simp only [heightL] at hh; omega) t _ es2 _ hes i h1

/-- Helper: stage 1 leaves the whole tree clamped (no hypothesis on the
input payoffs is needed, since every leaf member is clamped). -/
theorem stage1_inv : ∀ (H : ℕ) (e : Entity), heightE e ≤ H →
    ∀ t k e2 k2, stage1_cooperation e t k = .ok (e2, k2) →
    payoffInv e2 = true := by
  intro H
  induction H with
  | zero =>
    intro e he t k e2 k2 h
    cases e with
    | ind i => cases h
    | grp lvl r ms => simp [heightE] at he
  | succ n ihn =>
    intro e he t k e2 k2 h
    cases e with
    | ind i => cases h
    | grp lvl r ms =>
      simp only [stage1_cooperation] at h
      split_ifs at h
      · split at h
        · cases h
        next ms2 k3 hleaf =>
          cases h
          rw [payoffInv_iff]
          intro i hi
          exact stage1_leaf_inv ms t k ms2 _ hleaf i hi
      · split at h
        · cases h
        next ms2 k3 hlist =>
          cases h
          rw [payoffInv_iff]
          intro i hi
          exact stage1List_inv n ihn ms
            (by simp only [heightE] at he; omega) t k ms2 _ hlist i hi

/-- Helper: mutation does not change the payoff. -/
theorem mutate_payoff (i : Individual) (t : Tape) (k : ℕ) :
    (Individual.mutate i t k).1.payoff = i.payoff := by
  unfold Individual.mutate
  split <;> rfl

/-- Helper: the leaf mutation loop preserves the invariant. -/
theorem mutateMembers_inv : ∀ (ms : List Entity) (t : Tape) (k : ℕ)
    (ms2 : List Entity) (k2 : ℕ),
    mutateMembers ms t k = .ok (ms2, k2) →
    (∀ i ∈ allIndsL ms, payoff_ok i = true) →
    ∀ i ∈ allIndsL ms2, payoff_ok i = true := by
  intro ms
  induction ms with
  | nil =>
    intro t k ms2 k2 h hin
    cases h
    intro i hi
    cases hi
  | cons e es ih =>
    intro t k ms2 k2 h hin
    cases e with
    | grp lvl r sms => cases h
    | ind i0 =>
      simp only [mutateMembers] at h
      split at h
      · cases h
      next es2 k3 hes =>
        cases h
        intro i hi
        rw [allIndsL] at hi
        rcases List.mem_append.mp hi with h1 | h1
        · rw [allInds] at h1
          rw [List.mem_singleton] at h1
          subst h1
          have hp := hin i0 (by simp [allIndsL, allInds])
          unfold payoff_ok at hp ⊢
          rw [mutate_payoff]
          exact hp
        · exact ih t _ es2 _ hes
            (fun j hj => hin j (by simp only [allIndsL]; exact List.mem_append_right _ hj))
            i h1

/-- Helper: the member recursion of stage 5 preserves the invariant. -/
theorem stage5List_inv (H : ℕ)
    (IH : ∀ e : Entity, heightE e ≤ H → ∀ t k e2 k2,
      stage5_mutation e t k = .ok (e2, k2) → payoffInv e = true → payoffInv e2 = true) :
    ∀ ms, heightL ms ≤ H → ∀ t k ms2 k2, stage5List ms t k = .ok (ms2, k2) →
    (∀ i ∈ allIndsL ms, payoff_ok i = true) →
    ∀ i ∈ allIndsL ms2, payoff_ok i = true := by
  intro ms
  induction ms with
  | nil =>
    intro hh t k ms2 k2 h hin
    cases h
    intro i hi
    cases hi
  | cons e es ih =>
    intro hh t k ms2 k2 h hin
    simp only [stage5List] at h
    split at h
    · cases h
    next e2 k3 he =>
      split at h
      · cases h
      next es2 k4 hes =>
        cases h
        intro i hi
        rw [allIndsL] at hi
        rcases List.mem_append.mp hi with h1 | h1
        · have hinv : payoffInv e = true := by
            rw [payoffInv_iff]
            intro j hj
            exact hin j (by rw [allIndsL]; exact List.mem_append_left _ hj)
          have := IH e (by simp only [heightL] at hh; omega) t k e2 _ he hinv
          exact (payoffInv_iff e2).mp this i h1
        · exact ih (by simp only [heightL] at hh; omega) t _ es2 _ hes
            (fun j hj => hin j (by rw [allIndsL]; exact List.mem_append_right _ hj)) i h1

/-- Helper: the membership form and the indexed form of the list
invariant agree. -/
theorem all_getD_iff (l : List Individual) :
    (∀ i ∈ l, payoff_ok i = true) ↔
      ∀ j < l.length, payoff_ok (l.getD j default) = true := by
  constructor
  · intro h j hj
    apply h
    rw [List.getD_eq_getElem?_getD, List.getElem?_eq_getElem hj]
    exact List.getElem_mem hj
  · intro h i hi
    obtain ⟨j, hj, rfl⟩ := List.mem_iff_getElem.mp hi
    have := h j hj
    rwa [List.getD_eq_getElem?_getD, List.getElem?_eq_getElem hj] at this

/-- Helper: one clamped punishment interaction keeps all slots in
range. -/
theorem punishPair_inv (inds : List Individual) (p d n : ℕ)
    (hin : ∀ j < inds.length, payoff_ok (inds.getD j default) = true) :
    ∀ j < inds.length, payoff_ok ((punishPair inds p d n).getD j default) = true := by
  intro j hj
  unfold punishPair
  have hl1 : (updAt inds p fun x => { x with payoff := x.payoff - PUNISHER_COST / (n : ℚ) }).length = inds.length := updAt_length _ _ _
  have hl2 : (updAt (updAt inds p fun x => { x with payoff := x.payoff - PUNISHER_COST / (n : ℚ) }) d fun x => { x with payoff := x.payoff - PUNISHMENT_COST / (n : ℚ) }).length = inds.length := by rw [updAt_length, hl1]
  have hl3 : (updAt (updAt (updAt inds p fun x => { x with payoff := x.payoff - PUNISHER_COST / (n : ℚ) }) d fun x => { x with payoff := x.payoff - PUNISHMENT_COST / (n : ℚ) }) p fun x => { x with payoff := sanitize_payoff x.payoff }).length = inds.length := by rw [updAt_length, hl2]
  by_cases h4 : j = d
  · subst h4
    rw [getD_updAt_self _ _ _ _ (by rw [hl3]; exact hj)]
    exact payoff_ok_sanitize _ _
  · rw [getD_updAt_ne _ _ _ _ _ (by omega)]
    by_cases h3 : j = p
    · subst h3
      rw [getD_updAt_self _ _ _ _ (by rw [hl2]; exact hj)]
      exact payoff_ok_sanitize _ _
    · rw [getD_updAt_ne _ _ _ _ _ (by omega),
        getD_updAt_ne _ _ _ _ _ (by omega),
        getD_updAt_ne _ _ _ _ _ (by omega)]
      exact hin j hj

/-- Helper: the clamped inner loop of stage 2 keeps all slots in
range. -/
theorem stage2_inner_inv : ∀ (ds : List ℕ) (p n : ℕ)
    (st : List Individual × List (ℕ × ℕ)),
    (∀ j < st.1.length, payoff_ok (st.1.getD j default) = true) →
    ∀ j < st.1.length,
      payoff_ok ((stage2_inner p n ds st).1.getD j default) = true := by
  intro ds
  induction ds with
  | nil => intro p n st hin j hj; exact hin j hj
  | cons d rest ih =>
    intro p n st hin j hj
    simp only [stage2_inner]
    have hlen := punishPair_length st.1 p d n
    exact ih p n (punishPair st.1 p d n, st.2 ++ [(p, d)])
      (by
        intro j2 hj2
        simp only at hj2 ⊢
        rw [hlen] at hj2
        exact punishPair_inv st.1 p d n hin j2 hj2)
      j (by simpa [hlen] using hj)

/-- Helper: the clamped outer loop of stage 2 keeps all slots in
range. -/
theorem stage2_outer_inv : ∀ (ps ds : List ℕ)
    (st : List Individual × List (ℕ × ℕ)),
    (∀ j < st.1.length, payoff_ok (st.1.getD j default) = true) →
    ∀ j < st.1.length,
      payoff_ok ((stage2_outer ds ps st).1.getD j default) = true := by
  intro ps
  induction ps with
  | nil => intro ds st hin j hj; exact hin j hj
  | cons p rest ih =>
    intro ds st hin j hj
    by_cases hds0 : ds.length > 0
    · simp only [stage2_outer, if_pos hds0]
      have hlen := (stage2_inner_conns ds p ds.length st).2
      exact ih ds (stage2_inner p ds.length ds st)
        (by
          intro j2 hj2
          rw [hlen] at hj2
          exact stage2_inner_inv ds p ds.length st hin j2 hj2)
        j (by simpa [hlen] using hj)
    · simp only [stage2_outer, if_neg hds0]
      exact ih ds st hin j hj

/-- Helper: the clamped outer loop keeps the length. -/
theorem stage2_outer_length : ∀ (ps ds : List ℕ)
    (st : List Individual × List (ℕ × ℕ)),
    (stage2_outer ds ps st).1.length = st.1.length := by
  intro ps
  induction ps with
  | nil => intro ds st; rfl
  | cons p rest ih =>
    intro ds st
    by_cases hds0 : ds.length > 0
    · simp only [stage2_outer, if_pos hds0]
      rw [ih ds _, (stage2_inner_conns ds p ds.length st).2]
    · simp only [stage2_outer, if_neg hds0]
      exact ih ds st

/-- Helper: stage 2 on a leaf group keeps all members in range. -/
theorem stage2_leaf_inv (ms : List Entity) (ms2 : List Entity)
    (conns : List (ℕ × ℕ)) (h : stage2_leaf ms = .ok (ms2, conns))
    (hin : ∀ i ∈ allIndsL ms, payoff_ok i = true) :
    ∀ i ∈ allIndsL ms2, payoff_ok i = true := by
  unfold stage2_leaf at h
  split at h
  · cases h
  next inds hinds =>
    split at h
    next inds2 cs hloop =>
      cases h
      rw [asIndL_allIndsL ms inds hinds] at hin
      intro i hi
      rw [allIndsL_map_ind] at hi
      refine (all_getD_iff inds2).mpr ?_ i hi
      intro j hj
      have hl : inds2.length = inds.length := by
        have h1 := stage2_outer_length (punisherIdxs inds) (defectorIdxs inds) (inds, [])
        rw [hloop] at h1
        simpa using h1
      have hrun := stage2_outer_inv (punisherIdxs inds) (defectorIdxs inds) (inds, [])
        (by simpa using (all_getD_iff inds).mp hin) j (by simpa [hl] using hj)
      rw [hloop] at hrun
      simpa using hrun

/-- Helper: the member recursion of stage 2 preserves the invariant. -/
theorem stage2List_inv (H : ℕ)
    (IH : ∀ e : Entity, heightE e ≤ H → ∀ e2 conns,
      stage2_punishment e = .ok (e2, conns) → payoffInv e = true → payoffInv e2 = true) :
    ∀ ms, heightL ms ≤ H → ∀ ms2 conns, stage2List ms = .ok (ms2, conns) →
    (∀ i ∈ allIndsL ms, payoff_ok i = true) →
    ∀ i ∈ allIndsL ms2, payoff_ok i = true := by
  intro ms
  induction ms with
  | nil =>
    intro hh ms2 conns h hin
    cases h
    intro i hi
    cases hi
  | cons e es ih =>
    intro hh ms2 conns h hin
    simp only [stage2List] at h
    split at h
    · cases h
    next e2 cs he =>
      split at h
      · cases h
      next es2 cs2 hes =>
        cases h
        intro i hi
        rw [allIndsL] at hi
        rcases List.mem_append.mp hi with h1 | h1
        · have hinv : payoffInv e = true := by
            rw [payoffInv_iff]
            intro j hj
            exact hin j (by rw [allIndsL]; exact List.mem_append_left _ hj)
          have := IH e (by simp only [heightL] at hh; omega) e2 _ he hinv
          exact (payoffInv_iff e2).mp this i h1
        · exact ih (by simp only [heightL] at hh; omega) es2 _ hes
            (fun j hj => hin j (by rw [allIndsL]; exact List.mem_append_right _ hj)) i h1

/-- Helper: stage 2 preserves the invariant on the whole tree. -/
theorem stage2_inv : ∀ (H : ℕ) (e : Entity), heightE e ≤ H →
    ∀ e2 conns, stage2_punishment e = .ok (e2, conns) →
    payoffInv e = true → payoffInv e2 = true := by
  intro H
  induction H with
  | zero =>
    intro e he e2 conns h hin
    cases e with
    | ind i => cases h
    | grp lvl r ms => simp [heightE] at he
  | succ n ihn =>
    intro e he e2 conns h hin
    cases e with
    | ind i => cases h
    | grp lvl r ms =>
      simp only [stage2_punishment] at h
      rw [payoffInv_iff] at hin
      split_ifs at h
      · split at h
        · cases h
        next ms2 cs hleaf =>
          cases h
          rw [payoffInv_iff]
          intro i hi
          exact stage2_leaf_inv ms ms2 _ hleaf hin i hi
      · split at h
        · cases h
        next ms2 cs hlist =>
          cases h
          rw [payoffInv_iff]
          intro i hi
          exact stage2List_inv n ihn ms
            (by simp only [heightE] at he; omega) ms2 _ hlist hin i hi

mutual

/-- Helper: individuals reachable from a collected first-order state are
individuals of the entity it was collected from. -/
theorem gfog_inds : ∀ (e : Entity) (state : List (List Entity)),
    get_first_order_groups e = .ok state →
    ∀ i ∈ allIndsL state.flatten, i ∈ allInds e
  | .ind _ => by
    intro state h
    cases h
  | .grp lvl r ms => by
    intro state h i hi
    simp only [get_first_order_groups] at h
    split_ifs at h with hl
    · cases h
      simp only [List.flatten_cons, List.flatten_nil, List.append_nil] at hi
      rw [allInds]
      exact hi
    · exact gfogList_inds ms state h i hi

theorem gfogList_inds : ∀ (ms : List Entity) (state : List (List Entity)),
    gfogList ms = .ok state →
    ∀ i ∈ allIndsL state.flatten, i ∈ allIndsL ms
  | [] => by
    intro state h i hi
    cases h
    cases hi
  | .ind _ :: _ => by
    intro state h
    cases h
  | .grp lvl r sms :: es => by
    intro state h i hi
    simp only [gfogList] at h
    split_ifs at h with hl
    · split at h
      · cases h
      next rest hrest =>
        cases h
        rw [List.flatten_cons, allIndsL_append] at hi
        rw [allIndsL]
        rcases List.mem_append.mp hi with h1 | h1
        · exact List.mem_append_left _ (by rw [allInds]; exact h1)
        · exact List.mem_append_right _ (gfogList_inds es rest hrest i h1)
    · split at h
      · cases h
      next here hhere =>
        split at h
        · cases h
        next rest hrest =>
          cases h
          rw [List.flatten_append, allIndsL_append] at hi
          rw [allIndsL]
          rcases List.mem_append.mp hi with h1 | h1
          · exact List.mem_append_left _ (gfog_inds (.grp lvl r sms) here hhere i h1)
          · exact List.mem_append_right _ (gfogList_inds es rest hrest i h1)

end

/-- Helper: membership in the collected individuals of a member list. -/
theorem mem_allIndsL : ∀ (l : List Entity) (i : Individual),
    i ∈ allIndsL l ↔ ∃ e ∈ l, i ∈ allInds e := by
  intro l i
  induction l with
  | nil => simp [allIndsL]
  | cons e es ih =>
    rw [allIndsL, List.mem_append, ih]
    constructor
    · rintro (h1 | ⟨e2, he2, h2⟩)
      · exact ⟨e, List.mem_cons_self e es, h1⟩
      · exact ⟨e2, List.mem_cons_of_mem e he2, h2⟩
    · rintro ⟨e2, he2, h2⟩
      rcases List.mem_cons.mp he2 with rfl | he3
      · exact Or.inl h2
      · exact Or.inr ⟨e2, he3, h2⟩

/-- Helper: membership in the collected individuals of a flattened
state. -/
theorem mem_allIndsL_flatten : ∀ (S : List (List Entity)) (i : Individual),
    i ∈ allIndsL S.flatten ↔ ∃ l ∈ S, i ∈ allIndsL l := by
  intro S i
  induction S with
  | nil => simp [allIndsL]
  | cons l ls ih =>
    rw [List.flatten_cons, allIndsL_append, List.mem_append, ih]
    constructor
    · rintro (h1 | ⟨l2, hl2, h2⟩)
      · exact ⟨l, List.mem_cons_self l ls, h1⟩
      · exact ⟨l2, List.mem_cons_of_mem l hl2, h2⟩
    · rintro ⟨l2, hl2, h2⟩
      rcases List.mem_cons.mp hl2 with rfl | hl3
      · exact Or.inl h2
      · exact Or.inr ⟨l2, hl3, h2⟩

/-- Helper: the stage-3 loop body only rewrites one role, so all
payoffs stay in range. -/
theorem stage3_body_inv (state : List (List Entity)) (g m : ℕ) (t : Tape)
    (k : ℕ) (S2 : List (List Entity)) (oconn : Option ((ℕ × ℕ) × (ℕ × ℕ)))
    (k2 : ℕ) (h : stage3_body state g m t k = .ok (S2, oconn, k2))
    (hin : ∀ i ∈ allIndsL state.flatten, payoff_ok i = true) :
    ∀ i ∈ allIndsL S2.flatten, payoff_ok i = true := by
  unfold stage3_body at h
  split at h
  · cases h
  · cases h
    exact hin
  next pg pm k1 hpart =>
    split at h
    · cases h
    next selfEnt hself =>
      split at h
      · cases h
      next pself hpayoff =>
        split at h
        · cases h
        next partnerEnt hpartner =>
          split at h
          · cases h
          next ppart hppay =>
            simp only [] at h
            by_cases hq : t.q k1 <
                max ppart (1 / 100) / (max ppart (1 / 100) + max pself (1 / 100))
            · rw [if_pos hq] at h
              split at h
              · cases h
              next r hrole =>
                cases h
                intro i hi
                rw [mem_allIndsL_flatten] at hi
                obtain ⟨l, hl, hil⟩ := hi
                unfold setEnt at hl
                rcases List.mem_or_eq_of_mem_set hl with hl2 | rfl
                · exact hin i ((mem_allIndsL_flatten state i).mpr ⟨l, hl2, hil⟩)
                · rw [mem_allIndsL] at hil
                  obtain ⟨e2, he2, hie⟩ := hil
                  rcases List.mem_or_eq_of_mem_set he2 with he3 | rfl
                  · have hgl : g < state.length := by
                      by_contra hge
                      rw [List.getD_eq_getElem?_getD, List.getElem?_eq_none
                        (show state.length <= g by omega)] at hself
                      simp at hself
                    refine hin i ((mem_allIndsL_flatten state i).mpr
                      ⟨state.getD g [], ?_, (mem_allIndsL _ i).mpr ⟨e2, he3, hie⟩⟩)
                    rw [List.getD_eq_getElem?_getD, List.getElem?_eq_getElem hgl]
                    exact List.getElem_mem hgl
                  · cases selfEnt with
                    | grp lvl r2 sms => cases hpayoff
                    | ind si =>
                      simp only [entSetRole, allInds, List.mem_singleton] at hie
                      subst hie
                      have hgl : g < state.length := by
                        by_contra hge
                        rw [List.getD_eq_getElem?_getD, List.getElem?_eq_none
                          (show state.length <= g by omega)] at hself
                        simp at hself
                      have hsi : Entity.ind si ∈ state.getD g [] :=
                        List.getElem?_mem hself
                      have := hin si ((mem_allIndsL_flatten state si).mpr
                        ⟨state.getD g [], by
                          rw [List.getD_eq_getElem?_getD, List.getElem?_eq_getElem hgl]
                          exact List.getElem_mem hgl,
                         (mem_allIndsL _ si).mpr ⟨.ind si, hsi, by simp [allInds]⟩⟩)
                      unfold payoff_ok at this ⊢
                      exact this
            · rw [if_neg hq] at h
              cases h
              exact hin

/-- Helper: the stage-3 member loop keeps all payoffs in range. -/
theorem stage3_member_loop_inv : ∀ (idxs : List ℕ) (g : ℕ) (t : Tape)
    (state : List (List Entity)) (conns : List ((ℕ × ℕ) × (ℕ × ℕ))) (k : ℕ)
    (S2 : List (List Entity)) (conns2 : List ((ℕ × ℕ) × (ℕ × ℕ))) (k2 : ℕ),
    stage3_member_loop g t idxs state conns k = .ok (S2, conns2, k2) →
    (∀ i ∈ allIndsL state.flatten, payoff_ok i = true) →
    ∀ i ∈ allIndsL S2.flatten, payoff_ok i = true := by
  intro idxs
  induction idxs with
  | nil =>
    intro g t state conns k S2 conns2 k2 h hin
    cases h
    exact hin
  | cons m rest ih =>
    intro g t state conns k S2 conns2 k2 h hin
    simp only [stage3_member_loop] at h
    split at h
    · cases h
    next Sb ob kb hbody =>
      exact ih g t Sb _ _ S2 conns2 k2 h
        (stage3_body_inv state g m t k Sb ob kb hbody hin)

/-- Helper: the stage-3 group loop keeps all payoffs in range. -/
theorem stage3_group_loop_inv : ∀ (gs : List ℕ) (t : Tape)
    (state : List (List Entity)) (conns : List ((ℕ × ℕ) × (ℕ × ℕ))) (k : ℕ)
    (S2 : List (List Entity)) (conns2 : List ((ℕ × ℕ) × (ℕ × ℕ))) (k2 : ℕ),
    stage3_group_loop t gs state conns k = .ok (S2, conns2, k2) →
    (∀ i ∈ allIndsL state.flatten, payoff_ok i = true) →
    ∀ i ∈ allIndsL S2.flatten, payoff_ok i = true := by
  intro gs
  induction gs with
  | nil =>
    intro t state conns k S2 conns2 k2 h hin
    cases h
    exact hin
  | cons g rest ih =>
    intro t state conns k S2 conns2 k2 h hin
    simp only [stage3_group_loop] at h
    split at h
    · cases h
    next Sb cb kb hmem =>
      exact ih t Sb _ _ S2 conns2 k2 h
        (stage3_member_loop_inv _ g t state conns _ Sb cb kb hmem hin)

mutual

/-- Helper: writing back first-order member lists produces a tree whose
individuals come either from the new state or from the original tree. -/
theorem set_fog_inds : ∀ (e : Entity) (S : List (List Entity)),
    (∀ i ∈ allIndsL S.flatten, payoff_ok i = true) →
    (∀ i ∈ allInds e, payoff_ok i = true) →
    (∀ i ∈ allInds (set_fog e S).1, payoff_ok i = true) ∧
    (∀ i ∈ allIndsL (set_fog e S).2.flatten, payoff_ok i = true)
  | .ind i0 => by
    intro S hS he
    exact ⟨he, hS⟩
  | .grp lvl r ms => by
    intro S hS he
    simp only [set_fog]
    split_ifs with hl
    · match S with
      | [] => exact ⟨he, by intro i hi; cases hi⟩
      | h0 :: rest =>
        refine ⟨?_, ?_⟩
        · intro i hi
          rw [allInds] at hi
          exact hS i ((mem_allIndsL_flatten _ i).mpr ⟨h0, List.mem_cons_self _ _, hi⟩)
        · intro i hi
          rw [mem_allIndsL_flatten] at hi
          obtain ⟨l, hl2, hil⟩ := hi
          exact hS i ((mem_allIndsL_flatten _ i).mpr ⟨l, List.mem_cons_of_mem _ hl2, hil⟩)
    · have := set_fogL_inds ms S hS (by rwa [allInds] at he)
      exact ⟨by rw [allInds]; exact this.1, this.2⟩

theorem set_fogL_inds : ∀ (ms : List Entity) (S : List (List Entity)),
    (∀ i ∈ allIndsL S.flatten, payoff_ok i = true) →
    (∀ i ∈ allIndsL ms, payoff_ok i = true) →
    (∀ i ∈ allIndsL (set_fogL ms S).1, payoff_ok i = true) ∧
    (∀ i ∈ allIndsL (set_fogL ms S).2.flatten, payoff_ok i = true)
  | [] => by
    intro S hS he
    exact ⟨he, hS⟩
  | e :: es => by
    intro S hS he
    have hhead := set_fog_inds e S hS
      (fun i hi => he i (by rw [allIndsL]; exact List.mem_append_left _ hi))
    have htail := set_fogL_inds es (set_fog e S).2 hhead.2
      (fun i hi => he i (by rw [allIndsL]; exact List.mem_append_right _ hi))
    simp only [set_fogL]
    refine ⟨?_, htail.2⟩
    intro i hi
    rw [allIndsL] at hi
    rcases List.mem_append.mp hi with h1 | h1
    · exact hhead.1 i h1
    · exact htail.1 i h1

end

/-- Helper: stage 5 preserves the invariant (mutation only changes
roles). -/
theorem stage5_inv : ∀ (H : ℕ) (e : Entity), heightE e ≤ H →
    ∀ t k e2 k2, stage5_mutation e t k = .ok (e2, k2) →
    payoffInv e = true → payoffInv e2 = true := by
  intro H
  induction H with
  | zero =>
    intro e he t k e2 k2 h hin
    cases e with
    | ind i => cases h
    | grp lvl r ms => simp [heightE] at he
  | succ n ihn =>
    intro e he t k e2 k2 h hin
    cases e with
    | ind i => cases h
    | grp lvl r ms =>
      simp only [stage5_mutation] at h
      rw [payoffInv_iff] at hin
      split_ifs at h
      · split at h
        · cases h
        next ms2 k3 hmm =>
          cases h
          rw [payoffInv_iff]
          intro i hi
          exact mutateMembers_inv ms t k ms2 _ hmm hin i hi
      · split at h
        · cases h
        next ms2 k3 hlist =>
          cases h
          rw [payoffInv_iff]
          intro i hi
          exact stage5List_inv n ihn ms
            (by simp only [heightE] at he; omega) t k ms2 _ hlist hin i hi

/-- Helper: the member recursion of stage 3 preserves the invariant,
given it at smaller heights. -/
theorem stage3List_inv (H : ℕ)
    (IH : ∀ e : Entity, heightE e ≤ H → ∀ t k e2 conns k2,
      stage3_learning e t k = .ok (e2, conns, k2) →
      payoffInv e = true → payoffInv e2 = true) :
    ∀ ms, heightL ms ≤ H → ∀ t k ms2 conns k2,
    stage3List ms t k = .ok (ms2, conns, k2) →
    (∀ i ∈ allIndsL ms, payoff_ok i = true) →
    ∀ i ∈ allIndsL ms2, payoff_ok i = true := by
  intro ms
  induction ms with
  | nil =>
    intro hh t k ms2 conns k2 h hin
    cases h
    intro i hi
    cases hi
  | cons e es ih =>
    intro hh t k ms2 conns k2 h hin
    simp only [stage3List] at h
    split at h
    · cases h
    next e2 cs k3 he =>
      split at h
      · cases h
      next es2 cs2 k4 hes =>
        cases h
        intro i hi
        rw [allIndsL] at hi
        rcases List.mem_append.mp hi with h1 | h1
        · have := IH e (by simp only [heightL] at hh; omega) t k e2 _ _ he
            ((payoffInv_iff e).mpr fun j hj =>
              hin j (by rw [allIndsL]; exact List.mem_append_left _ hj))
          exact (payoffInv_iff e2).mp this i h1
        · exact ih (by simp only [heightL] at hh; omega) t _ es2 _ _ hes
            (fun j hj => hin j (by rw [allIndsL]; exact List.mem_append_right _ hj))
            i h1

/-- Helper: stage 3 preserves the payoff-range invariant (it only
rewrites roles; payoffs pass through unchanged). -/
theorem stage3_inv : ∀ (H : ℕ) (e : Entity), heightE e ≤ H →
    ∀ t k e2 conns k2, stage3_learning e t k = .ok (e2, conns, k2) →
    payoffInv e = true → payoffInv e2 = true := by
  intro H
  induction H with
  | zero =>
    intro e he t k e2 conns k2 h hin
    cases e with
    | ind i => cases h
    | grp lvl r ms => simp [heightE] at he
  | succ n ihn =>
    intro e he t k e2 conns k2 h hin
    cases e with
    | ind i => cases h
    | grp lvl r ms =>
      simp only [stage3_learning] at h
      rw [payoffInv_iff] at hin
      simp only [allInds] at hin
      split_ifs at h with h1 h2
      · split at h
        · cases h
        next state hstate =>
          split at h
          · cases h
          next state2 cs k3 hloop =>
            cases h
            rw [payoffInv_iff]
            simp only [allInds]
            have hstin : ∀ i ∈ allIndsL state.flatten, payoff_ok i = true :=
              fun i hi => hin i (gfogList_inds ms state hstate i hi)
            have hst2 := stage3_group_loop_inv (List.range state.length) t
              state [] k state2 _ _ hloop hstin
            exact (set_fogL_inds ms state2 hst2 hin).1
      · split at h
        · cases h
        next ms2 cs k3 hlist =>
          cases h
          rw [payoffInv_iff]
          simp only [allInds]
          exact stage3List_inv n ihn ms
            (by simp only [heightE] at he; omega) t k ms2 _ _ hlist hin
      · cases h
        rw [payoffInv_iff]
        simp only [allInds]
        exact hin

mutual

/-- Helper: deep-cloning an entity clones exactly its individuals, in
order. -/
theorem cloneE_allInds : ∀ e : Entity,
    allInds (cloneE e) = (allInds e).map Individual.clone
  | .ind i => by simp [cloneE, allInds]
  | .grp lvl r ms => by
    simp only [cloneE, allInds, cloneL_allIndsL ms]

theorem cloneL_allIndsL : ∀ ms : List Entity,
    allIndsL (cloneL ms) = (allIndsL ms).map Individual.clone
  | [] => by simp [cloneL, allIndsL]
  | e :: es => by
    simp only [cloneL, allIndsL, cloneE_allInds e, cloneL_allIndsL es,
      List.map_append]

end

/-- Helper: cloning an individual keeps its payoff, hence the range
check. -/
theorem payoff_ok_clone (i : Individual) : payoff_ok i.clone = payoff_ok i := rfl

mutual

/-- Helper: every individual of a successful `clone_coordinates` result
is an individual of the winner-clone argument (only geometry is copied
from the loser). -/
theorem cc_inds : ∀ (l w w2 : Entity), clone_coordinates l w = .ok w2 →
    ∀ i ∈ allInds w2, i ∈ allInds w
  | lo, .ind j, w2 => by
    intro h
    cases lo <;> simp [clone_coordinates] at h
  | .ind _, .grp _ _ _, _ => by
    intro h
    cases h
  | .grp ll lr lms, .grp wl wr wms, w2 => by
    intro h i hi
    simp only [clone_coordinates] at h
    split at h
    · cases h
    next wms2 hL =>
      cases h
      rw [allInds] at hi
      rw [allInds]
      exact ccL_inds lms wms wms2 hL i hi

theorem ccL_inds : ∀ (ls ws ws2 : List Entity),
    clone_coordinatesL ls ws = .ok ws2 →
    ∀ i ∈ allIndsL ws2, i ∈ allIndsL ws
  | [], ws, ws2 => by
    intro h i hi
    cases h
    exact hi
  | _ :: _, [], _ => by
    intro h
    cases h
  | l :: ls, w :: ws, ws2 => by
    intro h i hi
    simp only [clone_coordinatesL] at h
    split at h
    · cases h
    next w2 hw =>
      split at h
      · cases h
      next rest hrest =>
        cases h
        rw [allIndsL] at hi
        rw [allIndsL]
        rcases List.mem_append.mp hi with h1 | h1
        · exact List.mem_append_left _ (cc_inds l w w2 hw i h1)
        · exact List.mem_append_right _ (ccL_inds ls ws rest hrest i h1)

end

/-- Helper: the stage-4 pair loop preserves the payoff-range invariant:
the only members it writes are clones (with copied payoffs) of members of
the original list. -/
theorem stage4_pair_loop_inv : ∀ (idxs : List ℕ) (orig : List Entity)
    (sub : List ℕ) (t : Tape) (mem : List Entity)
    (conns : List (Entity × Entity)) (k : ℕ) (mem2 : List Entity)
    (conns2 : List (Entity × Entity)) (k2 : ℕ),
    stage4_pair_loop orig sub t idxs mem conns k = .ok (mem2, conns2, k2) →
    (∀ i ∈ allIndsL orig, payoff_ok i = true) →
    (∀ i ∈ allIndsL mem, payoff_ok i = true) →
    ∀ i ∈ allIndsL mem2, payoff_ok i = true := by
  intro idxs
  induction idxs with
  | nil =>
    intro orig sub t mem conns k mem2 conns2 k2 h horig hmem
    cases h
    exact hmem
  | cons j rest ih =>
    intro orig sub t mem conns k mem2 conns2 k2 h horig hmem
    simp only [stage4_pair_loop] at h
    split_ifs at h with h1 h2
    · split at h
      next group1 group2 hg1 hg2 =>
        split at h
        · cases h
        next g1wins hcompete =>
          split at h
          · cases h
          next wc2 hcc =>
            refine ih orig sub t _ _ _ mem2 conns2 k2 h horig ?_
            intro i hi
            rw [mem_allIndsL] at hi
            obtain ⟨e, he, hie⟩ := hi
            rcases List.mem_or_eq_of_mem_set he with he1 | rfl
            · exact hmem i ((mem_allIndsL _ i).mpr ⟨e, he1, hie⟩)
            · have h3 := cc_inds _ _ _ hcc i hie
              rw [cloneE_allInds] at h3
              obtain ⟨i0, hi0, rfl⟩ := List.mem_map.mp h3
              rw [payoff_ok_clone]
              have hwin : (if g1wins = true then
                  ((group1, group2, sub.getD (j + 1) 0) : Entity × Entity × ℕ)
                  else (group2, group1, sub.getD j 0)).1 = group1 ∨
                  (if g1wins = true then
                  ((group1, group2, sub.getD (j + 1) 0) : Entity × Entity × ℕ)
                  else (group2, group1, sub.getD j 0)).1 = group2 := by
                cases g1wins <;> simp
              rcases hwin with hw | hw <;> rw [hw] at hi0
              · exact horig i0 ((mem_allIndsL _ i0).mpr
                  ⟨group1, List.getElem?_mem hg1, hi0⟩)
              · exact horig i0 ((mem_allIndsL _ i0).mpr
                  ⟨group2, List.getElem?_mem hg2, hi0⟩)
      next hfall =>
        cases h
    · exact ih orig sub t mem conns (k + 1) mem2 conns2 k2 h horig hmem
    · exact ih orig sub t mem conns k mem2 conns2 k2 h horig hmem

/-- Helper: the member recursion of stage 4 preserves the invariant,
given it for the competition at bounded heights. -/
theorem stage4_children_inv (H : ℕ)
    (IH : ∀ e : Entity, heightE e ≤ H → ∀ t k e2 conns k2,
      stage4_competition e t k = .ok (e2, conns, k2) →
      payoffInv e = true → payoffInv e2 = true) :
    ∀ ms : List Entity, heightL ms ≤ H → ∀ t k ms2 conns k2,
    stage4_children ms t k = .ok (ms2, conns, k2) →
    (∀ i ∈ allIndsL ms, payoff_ok i = true) →
    ∀ i ∈ allIndsL ms2, payoff_ok i = true := by
  intro ms
  induction ms with
  | nil =>
    intro hh t k ms2 conns k2 h hin
    simp only [stage4_children] at h
    cases h
    intro i hi
    cases hi
  | cons e es ih =>
    intro hh t k ms2 conns k2 h hin
    cases e with
    | ind i0 =>
      simp only [stage4_children] at h
      cases h
    | grp lvl r ims =>
      simp only [stage4_children] at h
      split_ifs at h with h1
      · split at h
        · cases h
        next es2 cs k3 hes =>
          cases h
          intro i hi
          rw [allIndsL] at hi
          rcases List.mem_append.mp hi with h2 | h2
          · exact hin i (by rw [allIndsL]; exact List.mem_append_left _ h2)
          · exact ih (by simp only [heightL] at hh; omega) t k es2 _ _ hes
              (fun j hj => hin j
                (by rw [allIndsL]; exact List.mem_append_right _ hj)) i h2
      · split at h
        · cases h
        next e2 cs k3 hcomp =>
          split at h
          · cases h
          next es2 cs2 k4 hes =>
            cases h
            intro i hi
            rw [allIndsL] at hi
            rcases List.mem_append.mp hi with h2 | h2
            · have := IH (.grp lvl r ims)
                (by simp only [heightL] at hh; omega) t k e2 _ _ hcomp
                ((payoffInv_iff _).mpr fun j hj => hin j
                  (by rw [allIndsL]; exact List.mem_append_left _ hj))
              exact (payoffInv_iff e2).mp this i h2
            · exact ih (by simp only [heightL] at hh; omega) t k3 es2 _ _ hes
                (fun j hj => hin j
                  (by rw [allIndsL]; exact List.mem_append_right _ hj)) i h2

/-- Helper: stage 4 preserves the payoff-range invariant (losers are
replaced by clones whose individuals keep the winner's clamped
payoffs). -/
theorem stage4_inv : ∀ (H : ℕ) (e : Entity), heightE e ≤ H →
    ∀ t k e2 conns k2, stage4_competition e t k = .ok (e2, conns, k2) →
    payoffInv e = true → payoffInv e2 = true := by
  intro H
  induction H with
  | zero =>
    intro e he t k e2 conns k2 h hin
    cases e with
    | ind i => simp [stage4_competition] at h
    | grp lvl r ms => simp [heightE] at he
  | succ n ihn =>
    intro e he t k e2 conns k2 h hin
    cases e with
    | ind i => simp [stage4_competition] at h
    | grp lvl r ms =>
      simp only [stage4_competition] at h
      rw [payoffInv_iff] at hin
      simp only [allInds] at hin
      split_ifs at h with h1
      · split at h
        · cases h
        next ms2 cs k3 hploop =>
          split at h
          · cases h
          next ms3 cs2 k4 hch =>
            cases h
            rw [payoffInv_iff]
            simp only [allInds]
            have hb := heightL_pair_loop _ _ _ _ _ _ _ _ _ _ hploop (le_refl _)
            have hms2 : ∀ i ∈ allIndsL ms2, payoff_ok i = true :=
              stage4_pair_loop_inv _ ms _ t ms [] _ ms2 _ _ hploop hin hin
            exact stage4_children_inv n ihn ms2
              (by simp only [heightE] at he; omega) t k3 ms3 _ _ hch hms2
      · cases h
        rw [payoffInv_iff]
        simp only [allInds]
        exact hin

/-- C6: the payoff-range invariant of the specification.  Every freshly
constructed simulation satisfies `payoffInv` (each individual is created
with payoff 1, inside the interval [1/100, 1]), and every successful
`run_step` — whichever of the five stages it dispatches to — preserves
`payoffInv`: stages 1 and 2 clamp with `sanitize_payoff` after every
payoff change, stage 3 rewrites only roles, stage 4 replaces losers by
clones whose individuals keep the winner's payoffs, and stage 5 mutates
only roles. -/
theorem c6_payoff_invariant :
    (∀ (sizes : List ℕ) (c p : ℚ) (t : Tape) (k : ℕ) (s : Simulation) (k2 : ℕ),
      mkSimulation sizes c p t k = .ok (s, k2) → payoffInv s.root = true) ∧
    (∀ (s : Simulation) (t : Tape) (k : ℕ) (s2 : Simulation) (k2 : ℕ),
      run_step s t k = .ok (s2, k2) →
      payoffInv s.root = true → payoffInv s2.root = true) := by
  constructor
  · intro sizes c p t k s k2 h
    simp only [mkSimulation] at h
    split at h
    · cases h
    next root k3 hcr =>
      split at h
      · cases h
      next root2 hpos =>
        cases h
        rw [payoffInv_iff]
        intro i hi
        have hd := calcPos_data root sizes.length 50 100 (SCREEN_WIDTH - 100)
          (SCREEN_HEIGHT - 150) root2 hpos
        have hmm : indData i ∈ (allInds root).map indData := by
          rw [← hd]
          exact List.mem_map_of_mem _ hi
        obtain ⟨i0, hi0, he⟩ := List.mem_map.mp hmm
        have hp := (create_hierarchy_fresh sizes.length sizes c p t k root _
          hcr i0 hi0).2
        have hpy := congrArg (fun v => v.2.1) he
        simp only [indData] at hpy
        unfold payoff_ok
        rw [← hpy, hp, Bool.and_eq_true, decide_eq_true_iff, decide_eq_true_iff]
        norm_num
  · intro s t k s2 k2 h hin
    simp only [run_step] at h
    split_ifs at h with h0 h1 h2 h3
    · split at h
      · cases h
      next r2 k3 hst =>
        cases h
        exact stage1_inv (heightE s.root) s.root le_rfl t k r2 _ hst
    · split at h
      · cases h
      next r2 cs hst =>
        cases h
        exact stage2_inv (heightE s.root) s.root le_rfl r2 _ hst hin
    · split at h
      · cases h
      next r2 cs k3 hst =>
        cases h
        exact stage3_inv (heightE s.root) s.root le_rfl t k r2 _ _ hst hin
    · split at h
      · cases h
      next r2 cs k3 hst =>
        cases h
        exact stage4_inv (heightE s.root) s.root le_rfl t k r2 _ _ hst hin
    · split at h
      · cases h
      next r2 k3 hst =>
        cases h
        exact stage5_inv (heightE s.root) s.root le_rfl t k r2 _ hst hin

/-- C6 witness: the construction part at `Simulation([1, 2])` under the
all-zero oracle, and the preservation part at one cooperation step on a
leaf of two cooperators. -/
theorem c6_witness :
    payoffInv exSim12.root = true ∧ payoffInv exLeaf2Done = true :=
  ⟨c6_payoff_invariant.1 [1, 2] (33 / 100) (33 / 100) tape0 0 exSim12 2
      (by with_unfolding_all rfl),
   c6_payoff_invariant.2 ⟨exLeaf2, 4⟩ tape0 0 ⟨exLeaf2Done, 0⟩ 2
      (by with_unfolding_all rfl) (by with_unfolding_all rfl)⟩

end Multiselect
